import Mathlib

/-!
The AMQP producer of `internal/app/mistapiconnector/amqp_producer.go`

A shallow embedding of the asynchronous AMQP publisher: the bounded publish
queue, the per-epoch delivery tracker (`outstandingMsgs`), the retry policy
(`retryMsg`) and the event loop of `connectAndLoopPublish`.

Modelling decisions.

* Messages are heap objects (`*publishMessage` in the source).  The heap is a
  list of `publishMessage` values and a pointer is an index into it, so the
  in-place update `msg.retries++` and pointer identity are both visible.
* A buffered Go channel is the list of its buffered elements, head first; its
  capacity is checked where the source sends without blocking or blocks.
* `nextMsgTag` is a `uint64`: the increment is taken modulo `2 ^ 64`.
* `retries` is a Go `int`, 64 bits wide on the platforms the program is built
  for: an integer here, and `msg.retries++` wraps around (`wrapInt`).
* The worker goroutine is a small-step machine (`Pc`, `step`): every blocking
  point of the source (the `select` of the loop, the return of the transport
  publish call, each iteration of the deferred requeue loop) is a control
  state, and calls of `Publish` by other goroutines interleave between them.
* Logging (`glog`) has no effect on the state and is left out.
-/

namespace AmqpProducer

/-! ## Constants (source lines 15-20) -/

/-- Capacity of the publish queue. -/
def PublishQueueSize : Nat := 100

/-- Delay armed by `mainLoop` before each connection attempt, in seconds. -/
def RetryMinDelay : Nat := 5

/-- Ceiling of the attempt counter of a message. -/
def MaxRetries : Nat := 3

/-- The value of `amqp.Transient` in `github.com/streadway/amqp`. -/
def Transient : Nat := 1

/-- The value that a Go `int` of 64 bits holds after an arithmetic result `x`:
the representative of `x` modulo `2 ^ 64` in `-2 ^ 63 ≤ _ < 2 ^ 63`. -/
def wrapInt (x : Int) : Int := (x + 2 ^ 63) % 2 ^ 64 - 2 ^ 63

/-! ## Data model -/

/-- Go `error` values as far as the producer builds or forwards them. -/
inductive GoError where
  /-- The error `context.Canceled`. -/
  | canceled : GoError
  /-- The error `context.DeadlineExceeded`. -/
  | deadlineExceeded : GoError
  /-- An error made by `errors.New`, or an error value of a collaborator. -/
  | text (s : String) : GoError
  /-- The result of `fmt.Errorf(s ++ ": %w", inner)`. -/
  | wrapped (s : String) (inner : GoError) : GoError
  deriving DecidableEq, Repr

/-- The fields of `amqp.Publishing` that `newPublishMessage` sets; every other
field keeps its zero value. -/
structure Publishing where
  Headers : List (String × String)
  ContentType : String
  ContentEncoding : String
  DeliveryMode : Nat
  Priority : Nat
  Body : List UInt8
  deriving DecidableEq, Repr

/-- The struct `publishMessage` (source lines 22-28). -/
structure publishMessage extends Publishing where
  Exchange : String
  Key : String
  retries : Int
  deriving DecidableEq, Repr

/-- A `*publishMessage`: an index into the heap of the world. -/
abbrev Ptr := Nat

/-- The map `outstandingMsgs` as an association list from delivery tag to
message.  The order of the list carries no meaning. -/
abbrev TagMap := List (Nat × Ptr)

/-- Map read `m[t]` with the `ok` flag: `none` when `t` is not a key. -/
def mapGet : TagMap → Nat → Option Ptr
  | [], _ => none
  | (k, v) :: rest, t => if k = t then some v else mapGet rest t

/-- The builtin `delete(m, t)`. -/
def mapDelete (m : TagMap) (t : Nat) : TagMap :=
  m.filter (fun e => decide (e.1 ≠ t))

/-- The assignment `m[t] = v`: an existing entry under `t` is replaced. -/
def mapSet (m : TagMap) (t : Nat) (v : Ptr) : TagMap :=
  (t, v) :: mapDelete m t

/-- The messages held by a map. -/
def mapValues (m : TagMap) : List Ptr := m.map Prod.snd

/-- The keys of a map. -/
def mapKeys (m : TagMap) : List Nat := m.map Prod.fst

/-- A buffered channel of `*publishMessage`: the capacity given to `make` and
the buffered elements, oldest first. -/
structure Chan where
  cap : Nat
  buf : List Ptr
  deriving DecidableEq, Repr

/-- A send that does not block: `none` when the buffer is full. -/
def Chan.trySend (c : Chan) (msg : Ptr) : Option Chan :=
  if c.buf.length < c.cap then some { c with buf := c.buf ++ [msg] } else none

/-- The struct `amqpProducer` (source lines 36-43).  `ctx` is the value of
`p.ctx.Err()`: `none` while the producer's context is live.  `connectFn` is
the environment: its results enter through the events of the worker. -/
structure amqpProducer where
  ctx : Option GoError
  amqpURI : String
  exchange : String
  keyNs : String
  queue : String
  publishQ : Chan
  deriving DecidableEq, Repr

/-- Control state of the worker goroutine started by the constructor. -/
inductive Pc where
  /-- In `mainLoop`, about to call `connectAndLoopPublish`. -/
  | outside : Pc
  /-- Blocked in the `select` of the loop, with the two locals of the epoch. -/
  | selecting (nextMsgTag : Nat) (outstandingMsgs : TagMap) : Pc
  /-- `msg` was received from `publishQ` and `channel.Publish` was called with
  it; the call has not returned yet. -/
  | publishing (msg : Ptr) (nextMsgTag : Nat) (outstandingMsgs : TagMap) : Pc
  /-- A `return ret` of the loop was executed and the deferred function is
  running; `remaining` holds the entries its `range` has not visited yet. -/
  | deferred (ret : GoError) (remaining : TagMap) : Pc
  /-- The function `mainLoop` has returned. -/
  | stopped : Pc
  deriving DecidableEq, Repr

/-- The producer, the heap of messages, the worker and the log of the
messages handed to `channel.Publish`, oldest first. -/
structure World where
  p : amqpProducer
  heap : List publishMessage
  pc : Pc
  sent : List Ptr
  deriving DecidableEq, Repr

/-- The attempt counter behind a pointer (`0` for an unallocated one). -/
def retriesOf (heap : List publishMessage) (msg : Ptr) : Int :=
  match heap[msg]? with
  | some m => m.retries
  | none => 0

/-! ## Operations -/

/-- The value built by `newPublishMessage` (source lines 85-101). -/
def newPublishMessage (p : amqpProducer) (key : String) (bodyRaw : List UInt8) :
    publishMessage :=
  let key := if p.keyNs ≠ "" then p.keyNs ++ "." ++ key else key
  { Exchange := p.exchange
    Key := key
    Headers := []
    ContentType := "application/json"
    ContentEncoding := ""
    Body := bodyRaw
    DeliveryMode := Transient
    Priority := 1
    retries := 0 }

/-- The function `retryMsg` (source lines 182-194): increment the counter
through the pointer (a Go `int`, so the increment wraps), drop at the
ceiling, otherwise send without blocking.  A pointer held by the worker is
always allocated (`Inv`), so the first branch is never taken in a run. -/
def retryMsg (w : World) (msg : Ptr) : World :=
  match w.heap[msg]? with
  | none => w
  | some m =>
    let heap := w.heap.set msg { m with retries := wrapInt (m.retries + 1) }
    if (MaxRetries : Int) ≤ wrapInt (m.retries + 1) then
      { w with heap := heap }
    else
      match w.p.publishQ.trySend msg with
      | some q => { w with heap := heap, p := { w.p with publishQ := q } }
      | none => { w with heap := heap }

/-- The method `Publish` (source lines 69-83), as the list of the outcomes
that are possible in the world `w`: the returned error with the world after
the call.  `ctx` is the value of the caller's `ctx.Err()`.  The message is
built (and allocated) before the `select`; each ready case of the `select`
gives one outcome, in the order of the source, and the empty list means that
the call blocks. -/
def Publish {Body : Type} (jsonMarshal : Body → Except GoError (List UInt8))
    (w : World) (ctx : Option GoError) (key : String) (body : Body) :
    List (Option GoError × World) :=
  match jsonMarshal body with
  | .error err => [(some (.wrapped "failed to marshal body to json" err), w)]
  | .ok bodyRaw =>
    let msg : Ptr := w.heap.length
    let w1 : World := { w with heap := w.heap ++ [newPublishMessage w.p key bodyRaw] }
    (match w1.p.publishQ.trySend msg with
      | some q => [(none, { w1 with p := { w1.p with publishQ := q } })]
      | none => [])
    ++ (match ctx with
        | some e => [(some e, w1)]
        | none => [])
    ++ (match w1.p.ctx with
        | some e => [(some (.wrapped "producer context done" e), w1)]
        | none => [])

/-- One call of `connectFn`: the arguments that matter here.  A sink is `none`
for a nil channel, otherwise the capacity of the channel passed. -/
structure ConnectCall where
  uri : String
  exchange : String
  queue : String
  confirms : Option Nat
  closed : Option Nat
  deriving DecidableEq, Repr

/-- What the constructor does besides computing its result. -/
inductive Effect where
  /-- A call of `connectFn`. -/
  | connectFn (call : ConnectCall) : Effect
  /-- The call `cancel()` of the probe's context. -/
  | cancel : Effect
  /-- The statement `go amqp.mainLoop()`. -/
  | goMainLoop : Effect
  deriving DecidableEq, Repr

/-- Result of the constructor: the two return values (`producer` is `none`
for a nil producer; otherwise the world in which the worker starts), the
effects in program order and the environment after the probe. -/
structure Constructed (Env : Type) where
  producer : Option World
  err : Option GoError
  effects : List Effect
  env : Env

/-- The function `newAMQPProducerInternal` (source lines 49-67).  `connectFn`
acts on an environment `Env` and returns its error (`none` for nil); the
channel handle it returns is discarded by the constructor. -/
def newAMQPProducerInternal {Env : Type}
    (connectFn : Env → ConnectCall → Option GoError × Env) (env : Env)
    (ctx : Option GoError) (uri exchange queue keyNs : String) : Constructed Env :=
  let probe : ConnectCall :=
    { uri := uri, exchange := exchange, queue := queue, confirms := none, closed := none }
  match connectFn env probe with
  | (some err, env1) =>
    { producer := none, err := some err, effects := [.connectFn probe, .cancel], env := env1 }
  | (none, env1) =>
    let amqp : amqpProducer :=
      { ctx := ctx
        amqpURI := uri
        exchange := exchange
        keyNs := keyNs
        queue := queue
        publishQ := { cap := PublishQueueSize, buf := [] } }
    { producer := some { p := amqp, heap := [], pc := .outside, sent := [] }
      err := none
      effects := [.connectFn probe, .cancel, .goMainLoop]
      env := env1 }

/-- What `mainLoop` does when `connectAndLoopPublish` has returned (source
lines 113-116): return if the producer's context has ended, otherwise wait
for the timer and loop. -/
def afterReturn (w : World) : Pc :=
  match w.p.ctx with
  | some _ => .stopped
  | none => .outside

/-- The events of a run. -/
inductive Event (Body : Type) where
  /-- A call of `Publish` by some goroutine completes with its `choice`-th
  possible outcome. -/
  | callerPublish (ctx : Option GoError) (key : String) (body : Body) (choice : Nat) :
      Event Body
  /-- The producer's context ends with `err`. -/
  | cancel (err : GoError) : Event Body
  /-- The worker calls `connectAndLoopPublish` and `connectFn` returns. -/
  | connect (result : Option GoError) : Event Body
  /-- The `select` takes `case <-p.ctx.Done()`. -/
  | ctxDone : Event Body
  /-- The `select` takes `case err := <-closed`. -/
  | closed (err : GoError) : Event Body
  /-- The `select` takes `case msg := <-p.publishQ` and calls `channel.Publish`. -/
  | dequeue : Event Body
  /-- The call of `channel.Publish` returns. -/
  | publishReturns (err : Option GoError) : Event Body
  /-- The `select` takes `case conf, ok := <-confirms`; `none` is the closed
  channel (`ok` false), otherwise the tag and the ack flag. -/
  | confirm (conf : Option (Nat × Bool)) : Event Body
  /-- One iteration of the deferred `range` loop, at the entry under `tag`. -/
  | deferNext (tag : Nat) : Event Body
  /-- The deferred loop is over and `connectAndLoopPublish` returns. -/
  | deferDone : Event Body

/-- One step of the system; `none` when the event cannot happen in `w`.
The worker branches follow `connectAndLoopPublish` (source lines 121-180). -/
def step {Body : Type} (jsonMarshal : Body → Except GoError (List UInt8))
    (w : World) : Event Body → Option World
  | .callerPublish ctx key body choice =>
    ((Publish jsonMarshal w ctx key body)[choice]?).map Prod.snd
  | .cancel err =>
    match w.p.ctx with
    | none => some { w with p := { w.p with ctx := some err } }
    | some _ => none
  | .connect result =>
    match w.pc with
    | .outside =>
      match result with
      | some _ => some { w with pc := afterReturn w }
      | none => some { w with pc := .selecting 1 [] }
    | _ => none
  | .ctxDone =>
    match w.pc, w.p.ctx with
    | .selecting _ outstandingMsgs, some e => some { w with pc := .deferred e outstandingMsgs }
    | _, _ => none
  | .closed err =>
    match w.pc with
    | .selecting _ outstandingMsgs =>
      some { w with pc := .deferred (.wrapped "channel or connection closed" err) outstandingMsgs }
    | _ => none
  | .dequeue =>
    match w.pc, w.p.publishQ.buf with
    | .selecting nextMsgTag outstandingMsgs, msg :: rest =>
      some { w with
        p := { w.p with publishQ := { w.p.publishQ with buf := rest } }
        pc := .publishing msg nextMsgTag outstandingMsgs
        sent := w.sent ++ [msg] }
    | _, _ => none
  | .publishReturns result =>
    match w.pc with
    | .publishing msg nextMsgTag outstandingMsgs =>
      match result with
      | some err =>
        some { retryMsg w msg with pc := .deferred err outstandingMsgs }
      | none =>
        some { w with
          pc := .selecting ((nextMsgTag + 1) % 2 ^ 64) (mapSet outstandingMsgs nextMsgTag msg) }
    | _ => none
  | .confirm none =>
    match w.pc with
    | .selecting _ outstandingMsgs =>
      some { w with pc := .deferred (.text "channel or connection closed") outstandingMsgs }
    | _ => none
  | .confirm (some (tag, success)) =>
    match w.pc with
    | .selecting nextMsgTag outstandingMsgs =>
      match mapGet outstandingMsgs tag with
      | none => some w
      | some msg =>
        let w1 : World := { w with pc := .selecting nextMsgTag (mapDelete outstandingMsgs tag) }
        if success then some w1 else some (retryMsg w1 msg)
    | _ => none
  | .deferNext tag =>
    match w.pc with
    | .deferred ret remaining =>
      match mapGet remaining tag with
      | none => none
      | some msg => some (retryMsg { w with pc := .deferred ret (mapDelete remaining tag) } msg)
    | _ => none
  | .deferDone =>
    match w.pc with
    | .deferred _ [] => some { w with pc := afterReturn w }
    | _ => none

/-- A run: the events are applied from left to right; `none` as soon as one
of them cannot happen. -/
def run {Body : Type} (jsonMarshal : Body → Except GoError (List UInt8)) :
    World → List (Event Body) → Option World
  | w, [] => some w
  | w, e :: es =>
    match step jsonMarshal w e with
    | none => none
    | some w1 => run jsonMarshal w1 es


/-- The deferred function of `connectAndLoopPublish` (source lines 135-140)
when its `range` visits the messages in the order of the list. -/
def requeueOutstanding (w : World) (msgs : List Ptr) : World :=
  msgs.foldl retryMsg w

/-- The `nextMsgTag` of the epoch the worker is in, if it is in its loop. -/
def Pc.tag : Pc → Option Nat
  | .selecting nextMsgTag _ => some nextMsgTag
  | .publishing _ nextMsgTag _ => some nextMsgTag
  | _ => none

/-- A transport publish call returns without error. -/
def Event.isSendOk {Body : Type} : Event Body → Bool
  | .publishReturns none => true
  | _ => false

/-- The worker calls `connectAndLoopPublish`: a new epoch is attempted. -/
def Event.isConnect {Body : Type} : Event Body → Bool
  | .connect _ => true
  | _ => false

/-- The events that can happen while the deferred loop runs: an iteration of
the loop, and what other goroutines do meanwhile (a call of `Publish`
completes, the producer's context ends). -/
def Event.isDrain {Body : Type} : Event Body → Bool
  | .deferNext _ => true
  | .callerPublish _ _ _ _ => true
  | .cancel _ => true
  | _ => false

/-- The number of transport publish calls that succeed in a list of events. -/
def sendsOk {Body : Type} (evs : List (Event Body)) : Nat :=
  evs.countP Event.isSendOk

/-! ## The supervisor with an explicit clock -/

/-- What the environment decides in one iteration of the loop of `mainLoop`:
how long the call of `connectAndLoopPublish` takes, whether `p.ctx.Err()` is
non-nil when it returns, and how long after the receive from `retryAfter`
has become possible the next iteration begins.  Times are in seconds. -/
structure Iteration where
  epoch : Nat
  ended : Bool
  latency : Nat
  deriving DecidableEq, Repr

/-- The loop of `mainLoop` (source lines 110-118) on a clock: the begin time
and the return time of every call of `connectAndLoopPublish`, for an
iteration that begins at `now`.  The timer `retryAfter` is armed at `now`,
before the call, and fires at `now + RetryMinDelay`; the receive from it
completes once the call has returned and the timer has fired.  The list of
iterations is the part of the endless loop that is observed. -/
def mainLoop (now : Nat) : List Iteration → List (Nat × Nat)
  | [] => []
  | it :: rest =>
    let retryAfter := now + RetryMinDelay
    let returned := now + it.epoch
    (now, returned) ::
      (if it.ended then [] else mainLoop (max returned retryAfter + it.latency) rest)

/-- Whether `retryMsg` would try to put the message back into the queue: its
counter is still below the ceiling after the increment. -/
def eligible (heap : List publishMessage) (msg : Ptr) : Bool :=
  decide (wrapInt (retriesOf heap msg + 1) < (MaxRetries : Int))

/-- The two locals of the loop, `nextMsgTag` and `outstandingMsgs`, while the
worker is in the loop of an epoch. -/
def Pc.tracker : Pc → Option (Nat × TagMap)
  | .selecting nextMsgTag outstandingMsgs => some (nextMsgTag, outstandingMsgs)
  | .publishing _ nextMsgTag outstandingMsgs => some (nextMsgTag, outstandingMsgs)
  | _ => none

/-- The keys of the tracker are distinct and lie in `1 ≤ key < nextMsgTag`. -/
def TrackerOk (nextMsgTag : Nat) (outstandingMsgs : TagMap) : Prop :=
  1 ≤ nextMsgTag ∧ (mapKeys outstandingMsgs).Nodup ∧
  ∀ k ∈ mapKeys outstandingMsgs, 1 ≤ k ∧ k < nextMsgTag

/-- The entries of the map that the worker holds: `outstandingMsgs` in the
loop, the entries not yet visited in the deferred loop. -/
def Pc.entries : Pc → TagMap
  | .selecting _ outstandingMsgs => outstandingMsgs
  | .publishing _ _ outstandingMsgs => outstandingMsgs
  | .deferred _ remaining => remaining
  | _ => []

/-- What the representation owes to Go: a map has one entry per key, and the
publish queue is a channel of capacity `PublishQueueSize` that never holds
more. -/
def WellFormed (w : World) : Prop :=
  (mapKeys w.pc.entries).Nodup ∧
  w.p.publishQ.cap = PublishQueueSize ∧
  w.p.publishQ.buf.length ≤ PublishQueueSize

/-! ## The invariant of the worker -/

/-- The messages that the worker holds in its locals: the message of a
pending transport call and the values of the tracker map. -/
def Pc.held : Pc → List Ptr
  | .outside => []
  | .selecting _ outstandingMsgs => mapValues outstandingMsgs
  | .publishing msg _ outstandingMsgs => msg :: mapValues outstandingMsgs
  | .deferred _ remaining => mapValues remaining
  | .stopped => []

/-- The invariant, on the parts of a world it speaks about: the heap, the
queued pointers, the pointers held by the worker and the log of transport
calls.  A pointer is in at most one place; a queued message was handed to the
transport as often as its counter says, a held one once more; no counter and
no number of transport calls exceeds `MaxRetries`. -/
structure InvParts (heap : List publishMessage) (q held sent : List Ptr) : Prop where
  nodup : (q ++ held).Nodup
  alloc : ∀ x ∈ q ++ held, x < heap.length
  sentAlloc : ∀ x ∈ sent, x < heap.length
  queued : ∀ x ∈ q, retriesOf heap x < (MaxRetries : Int) ∧
    (sent.count x : Int) = retriesOf heap x
  inHand : ∀ x ∈ held, retriesOf heap x < (MaxRetries : Int) ∧
    (sent.count x : Int) = retriesOf heap x + 1
  bound : ∀ x, sent.count x ≤ MaxRetries
  counters : ∀ x, 0 ≤ retriesOf heap x ∧ retriesOf heap x ≤ (MaxRetries : Int)

/-- The invariant of a world. -/
def Inv (w : World) : Prop :=
  InvParts w.heap w.p.publishQ.buf w.pc.held w.sent

/-! ## Concrete data for the sanity checks -/

/-- A JSON encoder for the examples: `none` stands for a Go value that
`json.Marshal` rejects (a channel, a function). -/
def exampleMarshal : Option (List UInt8) → Except GoError (List UInt8)
  | some b => .ok b
  | none => .error (.text "json: unsupported type: chan int")

/-- A producer with a namespace and an empty queue. -/
def exampleProducer : amqpProducer :=
  { ctx := none, amqpURI := "amqp://localhost", exchange := "ex", keyNs := "ns",
    queue := "q", publishQ := { cap := PublishQueueSize, buf := [] } }

/-- The world in which the worker of `exampleProducer` starts. -/
def exampleStart : World :=
  { p := exampleProducer, heap := [], pc := .outside, sent := [] }

/-- One message on the heap, inside an epoch, nothing queued. -/
def exampleEpoch (pc : Pc) : World :=
  { p := exampleProducer, heap := [newPublishMessage exampleProducer "k" []], pc := pc, sent := [0] }

/-- A world with a full queue: one hundred messages, all queued, and both
contexts as given by the caller of the example. -/
def exampleFull (pctx : Option GoError) : World :=
  { p := { exampleProducer with
      ctx := pctx
      publishQ := { cap := PublishQueueSize, buf := List.range 100 } }
    heap := List.replicate 100 (newPublishMessage exampleProducer "k" [])
    pc := .outside
    sent := [] }

/-- A transport adapter for the examples: the environment counts the calls,
and the broker is reachable when the flag is set. -/
def exampleConnect (reachable : Bool) (calls : Nat) (_ : ConnectCall) : Option GoError × Nat :=
  (if reachable then none else some (.text "dial: connection refused"), calls + 1)

/-- A run in which one message is handed to the transport three times: a
negative confirmation, a failing publish call and a lost session each use up
one attempt. -/
def exampleThreeAttempts : List (Event (Option (List UInt8))) :=
  [.callerPublish none "k" (some [1]) 0, .connect none,
   .dequeue, .publishReturns none, .confirm (some (1, false)),
   .dequeue, .publishReturns (some (.text "write: broken pipe")), .deferDone,
   .connect none,
   .dequeue, .publishReturns none, .closed (.text "connection reset"), .deferNext 1, .deferDone]

/-- A run that ends an epoch with one unconfirmed message while the queue is
full: the message is sent, one hundred further messages are published, the
session is closed and the deferred loop retries the unconfirmed message. -/
def exampleLossRun : List (Event (Option (List UInt8))) :=
  [.callerPublish none "k" (some [1]) 0, .connect none, .dequeue, .publishReturns none]
    ++ List.replicate 100 (.callerPublish none "k" (some [1]) 0)
    ++ [.closed (.text "connection reset"), .deferNext 1]

/-- An epoch that has just ended with two unconfirmed messages: message 0
with counter 0 under tag 1 and message 1 with counter 2 under tag 2. -/
def exampleDeferred : World :=
  { p := exampleProducer
    heap := [newPublishMessage exampleProducer "k" [1],
             { newPublishMessage exampleProducer "k" [2] with retries := 2 }]
    pc := .deferred (.text "channel or connection closed") [(1, 0), (2, 1)]
    sent := [0, 1, 1, 1] }

/-- Two messages are queued and the worker is about to connect. -/
def exampleTwoQueued : World :=
  { p := { exampleProducer with publishQ := { cap := PublishQueueSize, buf := [0, 1] } }
    heap := [newPublishMessage exampleProducer "k" [1], newPublishMessage exampleProducer "k" [2]]
    pc := .outside
    sent := [] }

/-- The world reached from `exampleTwoQueued` when the first message has been
sent and the transport call for the second one is pending. -/
def exampleTwoSent : World :=
  { p := exampleProducer
    heap := [newPublishMessage exampleProducer "k" [1], newPublishMessage exampleProducer "k" [2]]
    pc := .publishing 1 2 [(1, 0)]
    sent := [0, 1] }

/-- The world at the end of `exampleThreeAttempts`. -/
def exampleAfterThreeAttempts : World :=
  { p := exampleProducer
    heap := [{ newPublishMessage exampleProducer "k" [1] with retries := 3 }]
    pc := .outside
    sent := [0, 0, 0] }

/-- The calls of `connectFn` among the effects, in order. -/
def connectCalls : List Effect → List ConnectCall
  | [] => []
  | .connectFn call :: rest => call :: connectCalls rest
  | _ :: rest => connectCalls rest

/-- A message is in the queue and another one is unconfirmed under tag 1. -/
def exampleQueuedAndSent : World :=
  { p := { exampleProducer with publishQ := { cap := PublishQueueSize, buf := [1] } }
    heap := [newPublishMessage exampleProducer "k" [1], newPublishMessage exampleProducer "k" [2]]
    pc := .selecting 2 [(1, 0)]
    sent := [0] }

/-- The world reached from `exampleQueuedAndSent` when the session is closed,
a further message is published while the deferred loop has not started, and
the loop then retries the unconfirmed message. -/
def exampleDrained : World :=
  { p := { exampleProducer with publishQ := { cap := PublishQueueSize, buf := [1, 2, 0] } }
    heap := [{ newPublishMessage exampleProducer "k" [1] with retries := 1 },
             newPublishMessage exampleProducer "k" [2],
             newPublishMessage exampleProducer "k" [3]]
    pc := .deferred (.wrapped "channel or connection closed" (.text "connection reset")) []
    sent := [0] }

/-- A message whose counter is the largest Go `int`, with an empty queue. -/
def exampleMaxInt : World :=
  { p := exampleProducer
    heap := [{ newPublishMessage exampleProducer "k" [] with retries := 2 ^ 63 - 1 }]
    pc := .selecting 2 []
    sent := [] }

/-! ## Basic facts -/

theorem wrapInt_of_range (x : Int) (hlo : -(2 ^ 63) ≤ x) (hhi : x < 2 ^ 63) :
    wrapInt x = x := by
  unfold wrapInt
  omega

theorem wrapInt_range (x : Int) : -(2 ^ 63) ≤ wrapInt x ∧ wrapInt x < 2 ^ 63 := by
  unfold wrapInt
  omega

theorem mapDelete_cons (k : Nat) (v : Ptr) (rest : TagMap) (t : Nat) :
    mapDelete ((k, v) :: rest) t = if k = t then mapDelete rest t else (k, v) :: mapDelete rest t := by
  by_cases h : k = t <;> simp [mapDelete, h]

theorem mapGet_cons (k : Nat) (v : Ptr) (rest : TagMap) (t : Nat) :
    mapGet ((k, v) :: rest) t = if k = t then some v else mapGet rest t := rfl

theorem mapGet_mapDelete_self (m : TagMap) (t : Nat) : mapGet (mapDelete m t) t = none := by
  induction m with
  | nil => rfl
  | cons e rest ih =>
    obtain ⟨k, v⟩ := e
    rw [mapDelete_cons]
    by_cases h : k = t
    · rw [if_pos h]; exact ih
    · rw [if_neg h, mapGet_cons, if_neg h]; exact ih

theorem mapGet_mapDelete_of_ne (m : TagMap) (t k : Nat) (hk : k ≠ t) :
    mapGet (mapDelete m t) k = mapGet m k := by
  induction m with
  | nil => rfl
  | cons e rest ih =>
    obtain ⟨k1, v⟩ := e
    rw [mapDelete_cons, mapGet_cons]
    by_cases h : k1 = t
    · have h1 : k1 ≠ k := by rintro rfl; exact hk h
      rw [if_pos h, if_neg h1]; exact ih
    · rw [if_neg h, mapGet_cons]
      by_cases h2 : k1 = k
      · rw [if_pos h2, if_pos h2]
      · rw [if_neg h2, if_neg h2]; exact ih

theorem mapGet_mapSet_self (m : TagMap) (t : Nat) (v : Ptr) : mapGet (mapSet m t v) t = some v := by
  simp [mapSet, mapGet]

theorem mapGet_mapSet_of_ne (m : TagMap) (t k : Nat) (v : Ptr) (hk : k ≠ t) :
    mapGet (mapSet m t v) k = mapGet m k := by
  have h1 : t ≠ k := fun h => hk h.symm
  simp [mapSet, mapGet, h1, mapGet_mapDelete_of_ne m t k hk]

/-! ## The routing key (C10) -/

/-- C10: the message built by `newPublishMessage` has routing key
`keyNs ++ "." ++ k` when the producer's `keyNs` is not empty, and `k` itself
when it is empty. -/
theorem newPublishMessage_key (p : amqpProducer) (k : String) (bodyRaw : List UInt8) :
    (newPublishMessage p k bodyRaw).Key = if p.keyNs = "" then k else p.keyNs ++ "." ++ k := by
  unfold newPublishMessage
  by_cases h : p.keyNs = "" <;> simp [h]

/-! ## The retry policy (C3) -/

/-- C3: `retryMsg` on an allocated message with counter `r` (any value of a
Go `int` but the largest, where `r + 1` overflows) and a queue of capacity
100 holding at most 100 messages sets the counter to `r + 1` and changes
nothing else on the heap; the queue is unchanged when `3 ≤ r + 1`, gets the
message at its tail when `r + 1 < 3` and it holds fewer than 100 messages,
and is unchanged when it is full; it holds at most 100 messages afterwards.
`retryMsg` is a total function: it has no blocking outcome. -/
theorem retryMsg_spec (w : World) (msg : Ptr) (m : publishMessage)
    (hm : w.heap[msg]? = some m)
    (hlo : -(2 ^ 63) ≤ m.retries) (hhi : m.retries < 2 ^ 63 - 1)
    (hcap : w.p.publishQ.cap = 100)
    (hlen : w.p.publishQ.buf.length ≤ 100) :
    (retryMsg w msg).heap = w.heap.set msg { m with retries := m.retries + 1 } ∧
    retriesOf (retryMsg w msg).heap msg = m.retries + 1 ∧
    (retryMsg w msg).p.publishQ.buf =
      (if 3 ≤ m.retries + 1 then w.p.publishQ.buf
       else if w.p.publishQ.buf.length < 100 then w.p.publishQ.buf ++ [msg]
       else w.p.publishQ.buf) ∧
    (retryMsg w msg).p.publishQ.buf.length ≤ 100 ∧
    (retryMsg w msg).p.publishQ.cap = 100 ∧
    (retryMsg w msg).pc = w.pc ∧ (retryMsg w msg).sent = w.sent := by
  have hlt : msg < w.heap.length := by
    rcases Nat.lt_or_ge msg w.heap.length with h | h
    · exact h
    · rw [List.getElem?_eq_none h] at hm; cases hm
  have hw : wrapInt (m.retries + 1) = m.retries + 1 :=
    wrapInt_of_range _ (by omega) (by omega)
  have hheap : (retryMsg w msg).heap = w.heap.set msg { m with retries := m.retries + 1 } := by
    unfold retryMsg
    rw [hm]
    simp only [Chan.trySend, hw]
    split_ifs <;> rfl
  have hcast : ((MaxRetries : Nat) : Int) = 3 := rfl
  refine ⟨hheap, ?_, ?_, ?_, ?_, ?_, ?_⟩
  · rw [hheap]; simp [retriesOf, List.getElem?_set, hlt]
  · unfold retryMsg
    rw [hm]
    simp only [Chan.trySend, hw, hcast, hcap]
    split_ifs <;> rfl
  · unfold retryMsg
    rw [hm]
    simp only [Chan.trySend, hw, hcast, hcap]
    split_ifs with h1 h2
    · exact hlen
    · simp only [List.length_append, List.length_singleton]
      omega
    · exact hlen
  · unfold retryMsg
    rw [hm]
    simp only [Chan.trySend]
    split_ifs <;> exact hcap
  · unfold retryMsg
    rw [hm]
    simp only [Chan.trySend]
    split_ifs <;> rfl
  · unfold retryMsg
    rw [hm]
    simp only [Chan.trySend]
    split_ifs <;> rfl

/-- C3, at a concrete input: a fresh message in an empty queue is re-enqueued
with counter 1. -/
theorem retryMsg_spec_witness :
    (retryMsg (exampleEpoch (.selecting 2 [])) 0).p.publishQ.buf = [0] ∧
    retriesOf (retryMsg (exampleEpoch (.selecting 2 [])) 0).heap 0 = 1 := by
  have h := retryMsg_spec (exampleEpoch (.selecting 2 [])) 0
    (newPublishMessage exampleProducer "k" []) rfl (by decide) (by decide) rfl (by decide)
  refine ⟨?_, h.2.1⟩
  rw [h.2.2.1]
  decide

theorem retryMsg_pc (w : World) (msg : Ptr) : (retryMsg w msg).pc = w.pc := by
  unfold retryMsg
  cases w.heap[msg]? with
  | none => rfl
  | some m =>
    simp only [Chan.trySend]
    split_ifs <;> rfl

theorem retryMsg_sent (w : World) (msg : Ptr) : (retryMsg w msg).sent = w.sent := by
  unfold retryMsg
  cases w.heap[msg]? with
  | none => rfl
  | some m =>
    simp only [Chan.trySend]
    split_ifs <;> rfl

theorem retryMsg_setPc (w : World) (pc : Pc) (msg : Ptr) :
    retryMsg { w with pc := pc } msg = { retryMsg w msg with pc := pc } := by
  unfold retryMsg
  cases w.heap[msg]? with
  | none => rfl
  | some m =>
    simp only [Chan.trySend]
    split_ifs <;> rfl

/-! ## Confirmations (C5, C6) -/

/-- C5: in the loop, a confirmation whose tag is not a key of
`outstandingMsgs` (whatever its ack flag) leaves the whole world unchanged:
the map, `nextMsgTag`, the queue, the heap with every counter, and the worker
stays in the `select` of the same epoch. -/
theorem confirm_unknown_tag {Body : Type} (jsonMarshal : Body → Except GoError (List UInt8))
    (w : World) (nextMsgTag : Nat) (outstandingMsgs : TagMap) (tag : Nat) (ack : Bool)
    (hpc : w.pc = .selecting nextMsgTag outstandingMsgs)
    (hget : mapGet outstandingMsgs tag = none) :
    step jsonMarshal w (.confirm (some (tag, ack))) = some w ∧
    w.pc = .selecting nextMsgTag outstandingMsgs := by
  refine ⟨?_, hpc⟩
  simp only [step, hpc, hget]

/-- C5, at a concrete input: tag 7 is unknown when only tag 1 is outstanding. -/
theorem confirm_unknown_tag_witness :
    step exampleMarshal (exampleEpoch (.selecting 2 [(1, 0)])) (.confirm (some (7, false)))
      = some (exampleEpoch (.selecting 2 [(1, 0)])) :=
  (confirm_unknown_tag exampleMarshal (exampleEpoch (.selecting 2 [(1, 0)])) 2 [(1, 0)] 7 false
    rfl (by decide)).1

/-- C6: in the loop, a confirmation whose tag is a key of `outstandingMsgs`
removes that entry and no other and keeps `nextMsgTag`; with an ack, nothing
else changes; with a nack, the heap and the queue are those that `retryMsg`
gives for the removed message. -/
theorem confirm_known_tag {Body : Type} (jsonMarshal : Body → Except GoError (List UInt8))
    (w : World) (nextMsgTag : Nat) (outstandingMsgs : TagMap) (tag : Nat) (msg : Ptr)
    (hpc : w.pc = .selecting nextMsgTag outstandingMsgs)
    (hget : mapGet outstandingMsgs tag = some msg) :
    step jsonMarshal w (.confirm (some (tag, true)))
      = some { w with pc := .selecting nextMsgTag (mapDelete outstandingMsgs tag) } ∧
    step jsonMarshal w (.confirm (some (tag, false)))
      = some { retryMsg w msg with pc := .selecting nextMsgTag (mapDelete outstandingMsgs tag) } ∧
    mapGet (mapDelete outstandingMsgs tag) tag = none ∧
    ∀ k, k ≠ tag → mapGet (mapDelete outstandingMsgs tag) k = mapGet outstandingMsgs k := by
  refine ⟨?_, ?_, mapGet_mapDelete_self _ _, fun k hk => mapGet_mapDelete_of_ne _ _ _ hk⟩
  · simp only [step, hpc, hget, if_true]
  · simp only [step, hpc, hget, retryMsg_setPc]
    rfl

/-- C6, at a concrete input: a nack for tag 1 removes the entry and puts the
message back into the queue with counter 1. -/
theorem confirm_known_tag_witness :
    step exampleMarshal (exampleEpoch (.selecting 2 [(1, 0)])) (.confirm (some (1, false)))
      = some { retryMsg (exampleEpoch (.selecting 2 [(1, 0)])) 0 with pc := .selecting 2 [] } :=
  (confirm_known_tag exampleMarshal (exampleEpoch (.selecting 2 [(1, 0)])) 2 [(1, 0)] 1 0
    rfl (by decide)).2.1


/-! ## The transport publish call (C7) -/

/-- C7: when the loop dequeues `msg` and the transport publish call fails
with `err`, `retryMsg` runs on `msg` (its counter goes up by one, as a Go
`int` does, which is `r + 1` for every counter `r` but the largest `int`, and
the queue is as `retryMsg` leaves it), the map and `nextMsgTag` are not touched
and `connectAndLoopPublish` returns `err`; when the call succeeds, `msg` is
recorded under `nextMsgTag`, `nextMsgTag` goes up by one and the worker is
back in the `select` of the same epoch. -/
theorem publish_result {Body : Type} (jsonMarshal : Body → Except GoError (List UInt8))
    (w : World) (nextMsgTag : Nat) (outstandingMsgs : TagMap) (msg : Ptr) (rest : List Ptr)
    (m : publishMessage)
    (hpc : w.pc = .selecting nextMsgTag outstandingMsgs)
    (hq : w.p.publishQ.buf = msg :: rest)
    (hm : w.heap[msg]? = some m)
    (htag : nextMsgTag + 1 < 2 ^ 64) :
    (∀ err, run jsonMarshal w [.dequeue, .publishReturns (some err)]
      = some { retryMsg { w with
                  p := { w.p with publishQ := { w.p.publishQ with buf := rest } }
                  sent := w.sent ++ [msg]
                  pc := .publishing msg nextMsgTag outstandingMsgs } msg
               with pc := .deferred err outstandingMsgs }) ∧
    (retriesOf (retryMsg { w with
                  p := { w.p with publishQ := { w.p.publishQ with buf := rest } }
                  sent := w.sent ++ [msg]
                  pc := .publishing msg nextMsgTag outstandingMsgs } msg).heap msg
        = wrapInt (m.retries + 1) ∧
      (-(2 ^ 63) ≤ m.retries → m.retries < 2 ^ 63 - 1 →
        retriesOf (retryMsg { w with
                  p := { w.p with publishQ := { w.p.publishQ with buf := rest } }
                  sent := w.sent ++ [msg]
                  pc := .publishing msg nextMsgTag outstandingMsgs } msg).heap msg
          = m.retries + 1)) ∧
    run jsonMarshal w [.dequeue, .publishReturns none]
      = some { w with
          p := { w.p with publishQ := { w.p.publishQ with buf := rest } }
          sent := w.sent ++ [msg]
          pc := .selecting (nextMsgTag + 1) (mapSet outstandingMsgs nextMsgTag msg) } ∧
    mapGet (mapSet outstandingMsgs nextMsgTag msg) nextMsgTag = some msg ∧
    ∀ k, k ≠ nextMsgTag →
      mapGet (mapSet outstandingMsgs nextMsgTag msg) k = mapGet outstandingMsgs k := by
  have hlt : msg < w.heap.length := by
    rcases Nat.lt_or_ge msg w.heap.length with h | h
    · exact h
    · rw [List.getElem?_eq_none h] at hm; cases hm
  refine ⟨fun err => ?_, ?_, ?_, mapGet_mapSet_self _ _ _,
    fun k hk => mapGet_mapSet_of_ne _ _ _ _ hk⟩
  · simp only [run, step, hpc, hq]
  · have hcounter : retriesOf (retryMsg { w with
                  p := { w.p with publishQ := { w.p.publishQ with buf := rest } }
                  sent := w.sent ++ [msg]
                  pc := .publishing msg nextMsgTag outstandingMsgs } msg).heap msg
        = wrapInt (m.retries + 1) := by
      unfold retryMsg
      simp only [hm, Chan.trySend]
      split_ifs <;> simp [retriesOf, List.getElem?_set, hlt]
    refine ⟨hcounter, fun hlo hhi => ?_⟩
    rw [hcounter]
    exact wrapInt_of_range _ (by omega) (by omega)
  · simp only [run, step, hpc, hq, Nat.mod_eq_of_lt htag]

/-- C7, at a concrete input: the only queued message is sent with success and
recorded under tag 1. -/
theorem publish_result_witness :
    run exampleMarshal
        { exampleEpoch (.selecting 1 []) with
          p := { exampleProducer with publishQ := { cap := PublishQueueSize, buf := [0] } }
          sent := [] }
        [.dequeue, .publishReturns none]
      = some (exampleEpoch (.selecting 2 [(1, 0)])) :=
  (publish_result exampleMarshal
    { exampleEpoch (.selecting 1 []) with
      p := { exampleProducer with publishQ := { cap := PublishQueueSize, buf := [0] } }
      sent := [] }
    1 [] 0 [] (newPublishMessage exampleProducer "k" []) rfl rfl rfl (by decide)).2.2.1

/-! ## The public call (C8) -/

/-- C8, as amended.  `Publish` first encodes the body: for a body that
`json.Marshal` rejects, the only outcome is the wrapped marshalling error
with the world, so the queue, unchanged.  For a body that `json.Marshal`
accepts: on a full queue (100 messages) no outcome of `Publish` enqueues,
every outcome leaves the queue as it was and returns either the caller's
context error (the caller's context has ended) or an error wrapping the
producer's context error (the producer's context has ended); when only one of
the two has ended the outcome is the one of that context, when both have
ended both outcomes are possible, and when none has ended the call blocks.
When the queue has room and no context has ended, the only outcome is `nil`
with the new message, and nothing else, added at the tail of the queue. -/
theorem Publish_outcomes {Body : Type} (jsonMarshal : Body → Except GoError (List UInt8))
    (w : World) (ctx : Option GoError) (key : String) (body : Body)
    (hcap : w.p.publishQ.cap = 100) :
    (∀ err, jsonMarshal body = .error err →
      Publish jsonMarshal w ctx key body
        = [(some (.wrapped "failed to marshal body to json" err), w)]) ∧
    (∀ bodyRaw, jsonMarshal body = .ok bodyRaw →
      (w.p.publishQ.buf.length = 100 →
        (∀ o ∈ Publish jsonMarshal w ctx key body,
          o.2.p.publishQ = w.p.publishQ ∧
          ((∃ e, ctx = some e ∧ o.1 = some e) ∨
           (∃ e, w.p.ctx = some e ∧ o.1 = some (.wrapped "producer context done" e)))) ∧
        (∀ e, ctx = some e → w.p.ctx = none →
          (Publish jsonMarshal w ctx key body).map Prod.fst = [some e]) ∧
        (∀ e, ctx = none → w.p.ctx = some e →
          (Publish jsonMarshal w ctx key body).map Prod.fst
            = [some (.wrapped "producer context done" e)]) ∧
        (∀ e1 e2, ctx = some e1 → w.p.ctx = some e2 →
          (Publish jsonMarshal w ctx key body).map Prod.fst
            = [some e1, some (.wrapped "producer context done" e2)]) ∧
        (ctx = none → w.p.ctx = none → Publish jsonMarshal w ctx key body = [])) ∧
      (w.p.publishQ.buf.length < 100 → ctx = none → w.p.ctx = none →
        Publish jsonMarshal w ctx key body
          = [(none, { w with
              heap := w.heap ++ [newPublishMessage w.p key bodyRaw]
              p := { w.p with
                publishQ := { w.p.publishQ with
                  buf := w.p.publishQ.buf ++ [w.heap.length] } } })])) := by
  refine ⟨fun err herr => ?_, fun bodyRaw hjson => ⟨fun hfull => ?_, fun hroom hc hp => ?_⟩⟩
  · simp only [Publish, herr]
  · have hno : ¬ w.p.publishQ.buf.length < w.p.publishQ.cap := by omega
    refine ⟨?_, ?_, ?_, ?_, ?_⟩
    · intro o ho
      simp only [Publish, hjson, Chan.trySend, if_neg hno, List.nil_append] at ho
      cases hc : ctx with
      | none =>
        cases hp : w.p.ctx with
        | none => simp [hc, hp] at ho
        | some e =>
          simp only [hc, hp, List.nil_append, List.mem_singleton] at ho
          subst ho
          exact ⟨rfl, Or.inr ⟨e, rfl, rfl⟩⟩
      | some e1 =>
        cases hp : w.p.ctx with
        | none =>
          simp only [hc, hp, List.append_nil, List.mem_singleton] at ho
          subst ho
          exact ⟨rfl, Or.inl ⟨e1, rfl, rfl⟩⟩
        | some e =>
          simp only [hc, hp, List.singleton_append, List.mem_cons, List.mem_singleton,
            List.not_mem_nil, or_false] at ho
          rcases ho with ho | ho
          · subst ho
            exact ⟨rfl, Or.inl ⟨e1, rfl, rfl⟩⟩
          · subst ho
            exact ⟨rfl, Or.inr ⟨e, rfl, rfl⟩⟩
    · intro e hc hp
      simp [Publish, hjson, Chan.trySend, if_neg hno, hc, hp]
    · intro e hc hp
      simp [Publish, hjson, Chan.trySend, if_neg hno, hc, hp]
    · intro e1 e2 hc hp
      simp [Publish, hjson, Chan.trySend, if_neg hno, hc, hp]
    · intro hc hp
      simp [Publish, hjson, Chan.trySend, if_neg hno, hc, hp]
  · have hyes : w.p.publishQ.buf.length < w.p.publishQ.cap := by omega
    simp [Publish, hjson, Chan.trySend, if_pos hyes, hc, hp]

/-- C8 as amended, at concrete inputs: with room and live contexts the call
returns `nil` and the queue gets the new message; on a full queue of a
producer whose context was cancelled the call returns the wrapped error; a
body that cannot be encoded gives the wrapped marshalling error. -/
theorem Publish_outcomes_witness :
    Publish exampleMarshal exampleStart none "k" (some [1])
      = [(none, { exampleStart with
            heap := exampleStart.heap ++ [newPublishMessage exampleStart.p "k" [1]]
            p := { exampleStart.p with
              publishQ := { exampleStart.p.publishQ with
                buf := exampleStart.p.publishQ.buf ++ [exampleStart.heap.length] } } })] ∧
    (Publish exampleMarshal (exampleFull (some .canceled)) none "k" (some [1])).map Prod.fst
      = [some (.wrapped "producer context done" .canceled)] ∧
    Publish exampleMarshal exampleStart none "k" none
      = [(some (.wrapped "failed to marshal body to json"
            (.text "json: unsupported type: chan int")), exampleStart)] :=
  ⟨((Publish_outcomes exampleMarshal exampleStart none "k" (some [1]) rfl).2 [1] rfl).2
      (by decide) rfl rfl,
   (((Publish_outcomes exampleMarshal (exampleFull (some .canceled)) none "k" (some [1])
      rfl).2 [1] rfl).1 (by decide)).2.2.1 .canceled rfl rfl,
   (Publish_outcomes exampleMarshal exampleStart none "k" none rfl).1
      (.text "json: unsupported type: chan int") rfl⟩

/-- C8 as stated fails.  First, the queue has room and no context has ended,
yet `Publish` returns an error and enqueues nothing: the body is one that
`json.Marshal` rejects.  Second, on a full queue with both contexts ended,
the caller's context has ended and yet one outcome returns the error of the
producer's context. -/
theorem Publish_counterexample :
    (exampleStart.p.publishQ.buf.length < 100 ∧ exampleStart.p.ctx = none ∧
      Publish exampleMarshal exampleStart none "k" none
        = [(some (.wrapped "failed to marshal body to json"
              (.text "json: unsupported type: chan int")), exampleStart)]) ∧
    ((exampleFull (some .canceled)).p.publishQ.buf.length = 100 ∧
      (Publish exampleMarshal (exampleFull (some .canceled)) (some .deadlineExceeded) "k"
          (some [1])).map Prod.fst
        = [some .deadlineExceeded, some (.wrapped "producer context done" .canceled)]) := by
  refine ⟨⟨by decide, rfl, rfl⟩, by decide, ?_⟩
  decide

/-! ## The constructor (C9) -/

/-- C9: `newAMQPProducerInternal` calls `connectFn` exactly once, with nil
sinks; when that call fails with `err` the result is a nil producer with
`err` itself and the worker is not started; when it succeeds the result is a
producer with an empty queue of capacity 100 and no error, and the worker is
started after the probe. -/
theorem newAMQPProducerInternal_probe {Env : Type}
    (connectFn : Env → ConnectCall → Option GoError × Env) (env : Env)
    (ctx : Option GoError) (uri exchange queue keyNs : String) :
    connectCalls (newAMQPProducerInternal connectFn env ctx uri exchange queue keyNs).effects
      = [{ uri := uri, exchange := exchange, queue := queue, confirms := none, closed := none }] ∧
    (newAMQPProducerInternal connectFn env ctx uri exchange queue keyNs).env
      = (connectFn env
          { uri := uri, exchange := exchange, queue := queue, confirms := none, closed := none }).2 ∧
    (∀ err,
      (connectFn env
          { uri := uri, exchange := exchange, queue := queue, confirms := none, closed := none }).1
        = some err →
      (newAMQPProducerInternal connectFn env ctx uri exchange queue keyNs).producer = none ∧
      (newAMQPProducerInternal connectFn env ctx uri exchange queue keyNs).err = some err ∧
      Effect.goMainLoop ∉
        (newAMQPProducerInternal connectFn env ctx uri exchange queue keyNs).effects) ∧
    ((connectFn env
          { uri := uri, exchange := exchange, queue := queue, confirms := none, closed := none }).1
        = none →
      (newAMQPProducerInternal connectFn env ctx uri exchange queue keyNs).producer
        = some { p := { ctx := ctx, amqpURI := uri, exchange := exchange, keyNs := keyNs,
                        queue := queue, publishQ := { cap := 100, buf := [] } }
                 heap := [], pc := .outside, sent := [] } ∧
      (newAMQPProducerInternal connectFn env ctx uri exchange queue keyNs).err = none ∧
      (newAMQPProducerInternal connectFn env ctx uri exchange queue keyNs).effects
        = [.connectFn { uri := uri, exchange := exchange, queue := queue,
                        confirms := none, closed := none },
           .cancel, .goMainLoop]) := by
  unfold newAMQPProducerInternal
  rcases h : connectFn env
      { uri := uri, exchange := exchange, queue := queue, confirms := none, closed := none }
    with ⟨r, env1⟩
  cases r with
  | none => simp [h, connectCalls, PublishQueueSize]
  | some e => simp [h, connectCalls]

/-- C9, at concrete inputs: with an unreachable broker the constructor
returns the error of the probe and no producer after one call; with a
reachable one it returns the producer after one call. -/
theorem newAMQPProducerInternal_probe_witness :
    ((newAMQPProducerInternal (exampleConnect false) 0 none "amqp://localhost" "ex" "q" "ns").producer
        = none ∧
      (newAMQPProducerInternal (exampleConnect false) 0 none "amqp://localhost" "ex" "q" "ns").err
        = some (.text "dial: connection refused") ∧
      Effect.goMainLoop ∉
        (newAMQPProducerInternal (exampleConnect false) 0 none "amqp://localhost" "ex" "q" "ns").effects) ∧
    (newAMQPProducerInternal (exampleConnect false) 0 none "amqp://localhost" "ex" "q" "ns").env = 1 ∧
    (newAMQPProducerInternal (exampleConnect true) 0 none "amqp://localhost" "ex" "q" "ns").producer
      = some exampleStart :=
  ⟨(newAMQPProducerInternal_probe (exampleConnect false) 0 none "amqp://localhost" "ex" "q"
      "ns").2.2.1 (.text "dial: connection refused") rfl,
   (newAMQPProducerInternal_probe (exampleConnect false) 0 none "amqp://localhost" "ex" "q"
      "ns").2.1,
   ((newAMQPProducerInternal_probe (exampleConnect true) 0 none "amqp://localhost" "ex" "q"
      "ns").2.2.2 rfl).1⟩


/-! ## The invariant is preserved -/

theorem retriesOf_append_of_lt (heap : List publishMessage) (m : publishMessage) (x : Ptr)
    (hx : x < heap.length) : retriesOf (heap ++ [m]) x = retriesOf heap x := by
  simp [retriesOf, List.getElem?_append_left hx]

theorem retriesOf_append_cases (heap : List publishMessage) (m : publishMessage) (x : Ptr)
    (hm : m.retries = 0) :
    retriesOf (heap ++ [m]) x = retriesOf heap x ∨ retriesOf (heap ++ [m]) x = 0 := by
  rcases Nat.lt_trichotomy x heap.length with h | h | h
  · exact Or.inl (retriesOf_append_of_lt heap m x h)
  · subst h
    right
    simp [retriesOf, hm]
  · have h1 : (heap ++ [m]).length ≤ x := by simp; omega
    right
    simp [retriesOf, List.getElem?_eq_none h1]

theorem retriesOf_append_self (heap : List publishMessage) (m : publishMessage) :
    retriesOf (heap ++ [m]) heap.length = m.retries := by
  simp [retriesOf]

theorem retriesOf_set_self (heap : List publishMessage) (m : publishMessage) (msg : Ptr)
    (hmsg : msg < heap.length) : retriesOf (heap.set msg m) msg = m.retries := by
  simp [retriesOf, List.getElem?_set, hmsg]

theorem retriesOf_set_of_ne (heap : List publishMessage) (m : publishMessage) (msg x : Ptr)
    (hx : x ≠ msg) : retriesOf (heap.set msg m) x = retriesOf heap x := by
  have h1 : msg ≠ x := fun h => hx h.symm
  simp [retriesOf, List.getElem?_set, h1]

theorem retriesOf_of_getElem? (heap : List publishMessage) (m : publishMessage) (msg : Ptr)
    (hm : heap[msg]? = some m) : retriesOf heap msg = m.retries := by
  simp [retriesOf, hm]

theorem count_zero_of_sentAlloc (heap : List publishMessage) (sent : List Ptr)
    (h : ∀ x ∈ sent, x < heap.length) : sent.count heap.length = 0 := by
  apply List.count_eq_zero_of_not_mem
  intro hmem
  exact Nat.lt_irrefl _ (h _ hmem)

theorem InvParts.mono_held {heap : List publishMessage} {q held held1 sent : List Ptr}
    (h : InvParts heap q held sent) (hsub : held1.Subperm held) :
    InvParts heap q held1 sent where
  nodup := by
    have h1 : (q ++ held1).Subperm (q ++ held) := (List.subperm_append_left q).mpr hsub
    obtain ⟨l, hl, hl2⟩ := h1
    exact hl.nodup_iff.mp (h.nodup.sublist hl2)
  alloc := fun x hx => h.alloc x (by
    rcases List.mem_append.mp hx with hx | hx
    · exact List.mem_append_left _ hx
    · exact List.mem_append_right _ (hsub.subset hx))
  sentAlloc := h.sentAlloc
  queued := h.queued
  inHand := fun x hx => h.inHand x (hsub.subset hx)
  bound := h.bound
  counters := h.counters


theorem InvParts.alloc_new {heap : List publishMessage} {q held sent : List Ptr}
    (h : InvParts heap q held sent) (m : publishMessage) (hm : m.retries = 0) :
    InvParts (heap ++ [m]) q held sent where
  nodup := h.nodup
  alloc := fun x hx => lt_of_lt_of_le (h.alloc x hx) (by simp)
  sentAlloc := fun x hx => lt_of_lt_of_le (h.sentAlloc x hx) (by simp)
  queued := fun x hx => by
    rw [retriesOf_append_of_lt heap m x (h.alloc x (List.mem_append_left _ hx))]
    exact h.queued x hx
  inHand := fun x hx => by
    rw [retriesOf_append_of_lt heap m x (h.alloc x (List.mem_append_right _ hx))]
    exact h.inHand x hx
  bound := h.bound
  counters := fun x => by
    rcases retriesOf_append_cases heap m x hm with h1 | h1
    · rw [h1]; exact h.counters x
    · rw [h1]; exact ⟨le_refl 0, by decide⟩

theorem InvParts.enqueue_new {heap : List publishMessage} {q held sent : List Ptr}
    (h : InvParts heap q held sent) (m : publishMessage) (hm : m.retries = 0) :
    InvParts (heap ++ [m]) (q ++ [heap.length]) held sent := by
  have h1 := h.alloc_new m hm
  have hfresh : heap.length ∉ q ++ held := fun hmem => Nat.lt_irrefl _ (h.alloc _ hmem)
  have hperm : (q ++ [heap.length] ++ held).Perm (heap.length :: (q ++ held)) := by
    rw [List.append_assoc]
    exact List.perm_middle
  refine
    { nodup := hperm.nodup_iff.mpr (List.nodup_cons.mpr ⟨hfresh, h.nodup⟩)
      alloc := ?_
      sentAlloc := h1.sentAlloc
      queued := ?_
      inHand := h1.inHand
      bound := h1.bound
      counters := h1.counters }
  · intro x hx
    rcases List.mem_cons.mp (hperm.subset hx) with hx | hx
    · subst hx
      simp
    · exact h1.alloc x hx
  · intro x hx
    rcases List.mem_append.mp hx with hx | hx
    · exact h1.queued x hx
    · rw [List.mem_singleton] at hx
      subst hx
      rw [retriesOf_append_self, hm, count_zero_of_sentAlloc heap sent h.sentAlloc]
      exact ⟨by decide, rfl⟩

theorem InvParts.dequeue {heap : List publishMessage} {q held sent : List Ptr} {msg : Ptr}
    (h : InvParts heap (msg :: q) held sent) :
    InvParts heap q (msg :: held) (sent ++ [msg]) := by
  have hperm : (q ++ msg :: held).Perm (msg :: q ++ held) := List.perm_middle
  have hnd : (msg :: (q ++ held)).Nodup := h.nodup
  have hnot : msg ∉ q ++ held := (List.nodup_cons.mp hnd).1
  have hmsg := h.queued msg (List.mem_cons_self _ _)
  have hcount : ∀ x, x ≠ msg → (sent ++ [msg]).count x = sent.count x := by
    intro x hx
    rw [List.count_append, List.count_singleton]
    have : ¬ (msg == x) = true := by simpa using fun h => hx h.symm
    simp [this]
  have hcount1 : (sent ++ [msg]).count msg = sent.count msg + 1 := by
    rw [List.count_append, List.count_singleton]
    simp
  refine
    { nodup := hperm.nodup_iff.mpr h.nodup
      alloc := fun x hx => h.alloc x (hperm.subset hx)
      sentAlloc := ?_
      queued := ?_
      inHand := ?_
      bound := ?_
      counters := h.counters }
  · intro x hx
    rcases List.mem_append.mp hx with hx | hx
    · exact h.sentAlloc x hx
    · rw [List.mem_singleton] at hx
      subst hx
      exact h.alloc x (List.mem_append_left _ (List.mem_cons_self _ _))
  · intro x hx
    have hne : x ≠ msg := fun e => hnot (e ▸ List.mem_append_left _ hx)
    rw [hcount x hne]
    exact h.queued x (List.mem_cons_of_mem _ hx)
  · intro x hx
    rcases List.mem_cons.mp hx with hx | hx
    · subst hx
      refine ⟨hmsg.1, ?_⟩
      rw [hcount1]
      push_cast
      rw [hmsg.2]
    · have hne : x ≠ msg := fun e => hnot (e ▸ List.mem_append_right _ hx)
      rw [hcount x hne]
      exact h.inHand x hx
  · intro x
    by_cases hx : x = msg
    · subst hx
      have h3 : (sent.count x : Int) < (MaxRetries : Int) := by
        rw [hmsg.2]
        exact hmsg.1
      have h4 : sent.count x < MaxRetries := by exact_mod_cast h3
      rw [hcount1]
      exact h4
    · rw [hcount x hx]
      exact h.bound x


theorem InvParts.retry_drop {heap : List publishMessage} {q held sent : List Ptr} {msg : Ptr}
    {m : publishMessage} (h : InvParts heap q (msg :: held) sent) (hm : heap[msg]? = some m) :
    InvParts (heap.set msg { m with retries := m.retries + 1 }) q held sent := by
  have hperm : (q ++ msg :: held).Perm (msg :: (q ++ held)) := List.perm_middle
  have hnd : (msg :: (q ++ held)).Nodup := hperm.nodup_iff.mp h.nodup
  have hnot : msg ∉ q ++ held := (List.nodup_cons.mp hnd).1
  have hmsg := h.inHand msg (List.mem_cons_self _ _)
  have hlt : msg < heap.length := h.alloc msg (List.mem_append_right _ (List.mem_cons_self _ _))
  have hpos := (h.counters msg).1
  rw [retriesOf_of_getElem? heap m msg hm] at hmsg hpos
  refine
    { nodup := (List.nodup_cons.mp hnd).2
      alloc := ?_
      sentAlloc := ?_
      queued := ?_
      inHand := ?_
      bound := h.bound
      counters := ?_ }
  · intro x hx
    rw [List.length_set]
    exact h.alloc x (hperm.symm.subset (List.mem_cons_of_mem _ hx))
  · intro x hx
    rw [List.length_set]
    exact h.sentAlloc x hx
  · intro x hx
    have hne : x ≠ msg := fun e => hnot (e ▸ List.mem_append_left _ hx)
    rw [retriesOf_set_of_ne heap _ msg x hne]
    exact h.queued x hx
  · intro x hx
    have hne : x ≠ msg := fun e => hnot (e ▸ List.mem_append_right _ hx)
    rw [retriesOf_set_of_ne heap _ msg x hne]
    exact h.inHand x (List.mem_cons_of_mem _ hx)
  · intro x
    by_cases hx : x = msg
    · subst hx
      rw [retriesOf_set_self heap _ x hlt]
      have h3 := hmsg.1
      constructor
      · show 0 ≤ m.retries + 1
        omega
      · show m.retries + 1 ≤ (MaxRetries : Int)
        omega
    · rw [retriesOf_set_of_ne heap _ msg x hx]
      exact h.counters x

theorem InvParts.retry_requeue {heap : List publishMessage} {q held sent : List Ptr} {msg : Ptr}
    {m : publishMessage} (h : InvParts heap q (msg :: held) sent) (hm : heap[msg]? = some m)
    (hroom : m.retries + 1 < (MaxRetries : Int)) :
    InvParts (heap.set msg { m with retries := m.retries + 1 }) (q ++ [msg]) held sent := by
  have h1 := h.retry_drop hm
  have hperm : (q ++ msg :: held).Perm (msg :: (q ++ held)) := List.perm_middle
  have hperm1 : (q ++ [msg] ++ held).Perm (q ++ msg :: held) := by
    rw [List.append_assoc]
    rfl
  have hmsg := h.inHand msg (List.mem_cons_self _ _)
  have hlt : msg < heap.length := h.alloc msg (List.mem_append_right _ (List.mem_cons_self _ _))
  rw [retriesOf_of_getElem? heap m msg hm] at hmsg
  refine
    { nodup := hperm1.nodup_iff.mpr h.nodup
      alloc := ?_
      sentAlloc := h1.sentAlloc
      queued := ?_
      inHand := h1.inHand
      bound := h1.bound
      counters := h1.counters }
  · intro x hx
    rw [List.length_set]
    exact h.alloc x (hperm1.subset hx)
  · intro x hx
    rcases List.mem_append.mp hx with hx | hx
    · exact h1.queued x hx
    · rw [List.mem_singleton] at hx
      subst hx
      rw [retriesOf_set_self heap _ x hlt]
      exact ⟨hroom, hmsg.2⟩

theorem Inv_retryMsg (w : World) (msg : Ptr)
    (h : InvParts w.heap w.p.publishQ.buf (msg :: w.pc.held) w.sent) : Inv (retryMsg w msg) := by
  have hlt : msg < w.heap.length := h.alloc msg (List.mem_append_right _ (List.mem_cons_self _ _))
  obtain ⟨m, hm⟩ : ∃ m, w.heap[msg]? = some m := ⟨w.heap[msg], List.getElem?_eq_getElem hlt⟩
  have hr := retriesOf_of_getElem? w.heap m msg hm
  have hpos := (h.counters msg).1
  have hceil := (h.inHand msg (List.mem_cons_self _ _)).1
  rw [hr] at hpos hceil
  have hcast : ((MaxRetries : Nat) : Int) = 3 := rfl
  have hw : wrapInt (m.retries + 1) = m.retries + 1 :=
    wrapInt_of_range _ (by omega) (by omega)
  unfold Inv retryMsg
  rw [hm]
  simp only [Chan.trySend, hw]
  split_ifs with h1 h2
  · exact h.retry_drop hm
  · exact h.retry_requeue hm (lt_of_not_le h1)
  · exact h.retry_drop hm


theorem mapValues_mapDelete_sublist (m : TagMap) (t : Nat) :
    (mapValues (mapDelete m t)).Sublist (mapValues m) :=
  List.Sublist.map _ (List.filter_sublist m)

theorem cons_mapValues_mapDelete_subperm (m : TagMap) (t : Nat) (msg : Ptr)
    (hget : mapGet m t = some msg) :
    (msg :: mapValues (mapDelete m t)).Subperm (mapValues m) := by
  induction m with
  | nil => cases hget
  | cons e rest ih =>
    obtain ⟨k, v⟩ := e
    rw [mapGet_cons] at hget
    rw [mapDelete_cons]
    by_cases h : k = t
    · rw [if_pos h] at hget ⊢
      cases hget
      exact ((mapValues_mapDelete_sublist rest t).cons₂ _).subperm
    · rw [if_neg h] at hget ⊢
      have h1 : (msg :: v :: mapValues (mapDelete rest t)).Perm
          (v :: msg :: mapValues (mapDelete rest t)) := List.Perm.swap _ _ _
      exact (h1.subperm_right).mpr ((List.subperm_cons v).mpr (ih hget))

theorem mapValues_mapSet_subperm (m : TagMap) (t : Nat) (msg : Ptr) :
    (mapValues (mapSet m t msg)).Subperm (msg :: mapValues m) :=
  ((mapValues_mapDelete_sublist m t).cons₂ msg).subperm

theorem held_afterReturn (w : World) : (afterReturn w).held = [] := by
  unfold afterReturn
  cases w.p.ctx <;> rfl

theorem Inv_Publish {Body : Type} (jsonMarshal : Body → Except GoError (List UInt8))
    (w : World) (ctx : Option GoError) (key : String) (body : Body) (h : Inv w) :
    ∀ o ∈ Publish jsonMarshal w ctx key body, Inv o.2 := by
  intro o ho
  unfold Publish at ho
  cases hj : jsonMarshal body with
  | error err =>
    simp only [hj, List.mem_singleton] at ho
    subst ho
    exact h
  | ok bodyRaw =>
    have h1 : InvParts (w.heap ++ [newPublishMessage w.p key bodyRaw]) w.p.publishQ.buf
        w.pc.held w.sent := InvParts.alloc_new h _ rfl
    have h2 : InvParts (w.heap ++ [newPublishMessage w.p key bodyRaw])
        (w.p.publishQ.buf ++ [w.heap.length]) w.pc.held w.sent := InvParts.enqueue_new h _ rfl
    simp only [hj, Chan.trySend, List.mem_append] at ho
    rcases ho with (ho | ho) | ho
    · split_ifs at ho
      · simp only [List.mem_singleton] at ho
        subst ho
        exact h2
      · cases ho
    · cases hc : ctx with
      | none => simp [hc] at ho
      | some e =>
        simp only [hc, List.mem_singleton] at ho
        subst ho
        exact h1
    · cases hc : w.p.ctx with
      | none => simp [hc] at ho
      | some e =>
        simp only [hc, List.mem_singleton] at ho
        subst ho
        exact h1


theorem Inv_step {Body : Type} (jsonMarshal : Body → Except GoError (List UInt8))
    (w w1 : World) (e : Event Body) (h : Inv w) (hs : step jsonMarshal w e = some w1) :
    Inv w1 := by
  cases e with
  | callerPublish ctx key body choice =>
    simp only [step, Option.map_eq_some'] at hs
    obtain ⟨o, ho, rfl⟩ := hs
    exact Inv_Publish jsonMarshal w ctx key body h o (List.getElem?_mem ho)
  | cancel err =>
    simp only [step] at hs
    cases hc : w.p.ctx with
    | none =>
      simp only [hc, Option.some.injEq] at hs
      subst hs
      exact h
    | some e => simp [hc] at hs
  | connect result =>
    cases hpc : w.pc with
    | outside =>
      have h1 : InvParts w.heap w.p.publishQ.buf [] w.sent := by
        simpa [Inv, hpc, Pc.held] using h
      cases result with
      | none =>
        simp only [step, hpc, Option.some.injEq] at hs
        subst hs
        exact h1
      | some err =>
        simp only [step, hpc, Option.some.injEq] at hs
        subst hs
        show InvParts w.heap w.p.publishQ.buf (afterReturn w).held w.sent
        rw [held_afterReturn]
        exact h1
    | selecting t o => simp [step, hpc] at hs
    | publishing msg t o => simp [step, hpc] at hs
    | deferred ret o => simp [step, hpc] at hs
    | stopped => simp [step, hpc] at hs
  | ctxDone =>
    cases hpc : w.pc with
    | selecting t o =>
      cases hc : w.p.ctx with
      | none => simp [step, hpc, hc] at hs
      | some err =>
        simp only [step, hpc, hc, Option.some.injEq] at hs
        subst hs
        simpa [Inv, hpc, Pc.held] using h
    | outside => simp [step, hpc] at hs
    | publishing msg t o => simp [step, hpc] at hs
    | deferred ret o => simp [step, hpc] at hs
    | stopped => simp [step, hpc] at hs
  | closed err =>
    cases hpc : w.pc with
    | selecting t o =>
      simp only [step, hpc, Option.some.injEq] at hs
      subst hs
      simpa [Inv, hpc, Pc.held] using h
    | outside => simp [step, hpc] at hs
    | publishing msg t o => simp [step, hpc] at hs
    | deferred ret o => simp [step, hpc] at hs
    | stopped => simp [step, hpc] at hs
  | dequeue =>
    cases hpc : w.pc with
    | selecting t o =>
      cases hq : w.p.publishQ.buf with
      | nil => simp [step, hpc, hq] at hs
      | cons msg rest =>
        have h1 : InvParts w.heap (msg :: rest) (mapValues o) w.sent := by
          simpa [Inv, hpc, Pc.held, hq] using h
        simp only [step, hpc, hq, Option.some.injEq] at hs
        subst hs
        exact h1.dequeue
    | outside => simp [step, hpc] at hs
    | publishing msg t o => simp [step, hpc] at hs
    | deferred ret o => simp [step, hpc] at hs
    | stopped => simp [step, hpc] at hs
  | publishReturns result =>
    cases hpc : w.pc with
    | publishing msg t o =>
      have h1 : InvParts w.heap w.p.publishQ.buf (msg :: mapValues o) w.sent := by
        simpa [Inv, hpc, Pc.held] using h
      cases result with
      | none =>
        simp only [step, hpc, Option.some.injEq] at hs
        subst hs
        exact h1.mono_held (mapValues_mapSet_subperm o t msg)
      | some err =>
        simp only [step, hpc, Option.some.injEq] at hs
        subst hs
        rw [← retryMsg_setPc]
        exact Inv_retryMsg _ msg h1
    | outside => simp [step, hpc] at hs
    | selecting t o => simp [step, hpc] at hs
    | deferred ret o => simp [step, hpc] at hs
    | stopped => simp [step, hpc] at hs
  | confirm conf =>
    cases hpc : w.pc with
    | selecting t o =>
      have h1 : InvParts w.heap w.p.publishQ.buf (mapValues o) w.sent := by
        simpa [Inv, hpc, Pc.held] using h
      cases conf with
      | none =>
        simp only [step, hpc, Option.some.injEq] at hs
        subst hs
        exact h1
      | some c =>
        obtain ⟨tag, success⟩ := c
        cases hget : mapGet o tag with
        | none =>
          simp only [step, hpc, hget, Option.some.injEq] at hs
          subst hs
          exact h
        | some msg =>
          have h2 := h1.mono_held (cons_mapValues_mapDelete_subperm o tag msg hget)
          cases success with
          | true =>
            simp only [step, hpc, hget, if_true, Option.some.injEq] at hs
            subst hs
            exact h2.mono_held (List.Subperm.cons_self)
          | false =>
            simp only [step, hpc, hget, Bool.false_eq_true, if_false, Option.some.injEq] at hs
            subst hs
            exact Inv_retryMsg _ msg h2
    | outside => cases conf with
      | none => simp [step, hpc] at hs
      | some c => simp [step, hpc] at hs
    | publishing msg t o => cases conf with
      | none => simp [step, hpc] at hs
      | some c => simp [step, hpc] at hs
    | deferred ret o => cases conf with
      | none => simp [step, hpc] at hs
      | some c => simp [step, hpc] at hs
    | stopped => cases conf with
      | none => simp [step, hpc] at hs
      | some c => simp [step, hpc] at hs
  | deferNext tag =>
    cases hpc : w.pc with
    | deferred ret o =>
      have h1 : InvParts w.heap w.p.publishQ.buf (mapValues o) w.sent := by
        simpa [Inv, hpc, Pc.held] using h
      cases hget : mapGet o tag with
      | none => simp [step, hpc, hget] at hs
      | some msg =>
        have h2 := h1.mono_held (cons_mapValues_mapDelete_subperm o tag msg hget)
        simp only [step, hpc, hget, Option.some.injEq] at hs
        subst hs
        exact Inv_retryMsg _ msg h2
    | outside => simp [step, hpc] at hs
    | selecting t o => simp [step, hpc] at hs
    | publishing msg t o => simp [step, hpc] at hs
    | stopped => simp [step, hpc] at hs
  | deferDone =>
    cases hpc : w.pc with
    | deferred ret o =>
      cases o with
      | nil =>
        have h1 : InvParts w.heap w.p.publishQ.buf [] w.sent := by
          simpa [Inv, hpc, Pc.held, mapValues] using h
        simp only [step, hpc, Option.some.injEq] at hs
        subst hs
        show InvParts w.heap w.p.publishQ.buf (afterReturn w).held w.sent
        rw [held_afterReturn]
        exact h1
      | cons e rest => simp [step, hpc] at hs
    | outside => simp [step, hpc] at hs
    | selecting t o => simp [step, hpc] at hs
    | publishing msg t o => simp [step, hpc] at hs
    | stopped => simp [step, hpc] at hs

theorem Inv_run {Body : Type} (jsonMarshal : Body → Except GoError (List UInt8))
    (evs : List (Event Body)) (w w1 : World) (h : Inv w)
    (hr : run jsonMarshal w evs = some w1) : Inv w1 := by
  induction evs generalizing w with
  | nil =>
    simp only [run, Option.some.injEq] at hr
    subst hr
    exact h
  | cons e es ih =>
    cases hs : step jsonMarshal w e with
    | none => simp [run, hs] at hr
    | some w2 =>
      simp only [run, hs] at hr
      exact ih w2 (Inv_step jsonMarshal w w2 e h hs) hr


theorem newAMQPProducerInternal_start {Env : Type}
    (connectFn : Env → ConnectCall → Option GoError × Env) (env : Env)
    (ctx : Option GoError) (uri exchange queue keyNs : String) (w0 : World)
    (hnew : (newAMQPProducerInternal connectFn env ctx uri exchange queue keyNs).producer
      = some w0) :
    w0.heap = [] ∧ w0.p.publishQ = { cap := PublishQueueSize, buf := [] } ∧
    w0.pc = .outside ∧ w0.sent = [] := by
  unfold newAMQPProducerInternal at hnew
  rcases h : connectFn env
      { uri := uri, exchange := exchange, queue := queue, confirms := none, closed := none }
    with ⟨r, env1⟩
  cases r with
  | none =>
    simp only [h, Option.some.injEq] at hnew
    subst hnew
    exact ⟨rfl, rfl, rfl, rfl⟩
  | some e => simp [h] at hnew

theorem Inv_of_empty (w : World) (hheap : w.heap = []) (hq : w.p.publishQ.buf = [])
    (hpc : w.pc = .outside) (hsent : w.sent = []) : Inv w := by
  unfold Inv
  rw [hheap, hq, hpc, hsent]
  exact
    { nodup := by simp [Pc.held]
      alloc := by simp [Pc.held]
      sentAlloc := by simp
      queued := by simp
      inHand := by simp [Pc.held]
      bound := by simp
      counters := by simp [retriesOf] }

/-! ## The bound on the delivery attempts (C1) -/

/-- C1: in every run of the system that starts from the world returned by the
constructor (calls of `Publish`, cancellation, connection attempts, dequeues
with succeeding or failing transport publishes, confirmations with any tag
and ack flag, close notifications, the deferred requeue, over any number of
epochs), every message is handed to the transport publish call at most
`MaxRetries = 3` times. -/
theorem publish_calls_bounded {Body Env : Type}
    (jsonMarshal : Body → Except GoError (List UInt8))
    (connectFn : Env → ConnectCall → Option GoError × Env) (env : Env)
    (ctx : Option GoError) (uri exchange queue keyNs : String) (w0 : World)
    (hnew : (newAMQPProducerInternal connectFn env ctx uri exchange queue keyNs).producer
      = some w0)
    (evs : List (Event Body)) (w : World) (hrun : run jsonMarshal w0 evs = some w)
    (msg : Ptr) :
    w.sent.count msg ≤ 3 := by
  obtain ⟨hheap, hq, hpc, hsent⟩ :=
    newAMQPProducerInternal_start connectFn env ctx uri exchange queue keyNs w0 hnew
  have h0 : Inv w0 := Inv_of_empty w0 hheap (by rw [hq]) hpc hsent
  exact (Inv_run jsonMarshal evs w0 w h0 hrun).bound msg

/-- C1, at a concrete run: the message is sent three times (after a nack,
after a failing publish call and after a lost session) and then dropped. -/
theorem publish_calls_bounded_witness :
    run exampleMarshal exampleStart exampleThreeAttempts = some exampleAfterThreeAttempts ∧
    exampleAfterThreeAttempts.sent.count 0 = 3 ∧
    exampleAfterThreeAttempts.sent.count 0 ≤ 3 :=
  ⟨by decide, by decide,
   publish_calls_bounded exampleMarshal (exampleConnect true) 0 none "amqp://localhost" "ex" "q"
     "ns" exampleStart rfl exampleThreeAttempts exampleAfterThreeAttempts (by decide) 0⟩


/-! ## The requeue at the end of an epoch (C2) -/

theorem retryMsg_cap (w : World) (msg : Ptr) :
    (retryMsg w msg).p.publishQ.cap = w.p.publishQ.cap := by
  unfold retryMsg
  cases w.heap[msg]? with
  | none => rfl
  | some m =>
    simp only [Chan.trySend]
    split_ifs <;> rfl

theorem retryMsg_heap_length (w : World) (msg : Ptr) :
    (retryMsg w msg).heap.length = w.heap.length := by
  unfold retryMsg
  cases w.heap[msg]? with
  | none => rfl
  | some m =>
    simp only [Chan.trySend]
    split_ifs <;> simp

theorem retryMsg_buf_grows (w : World) (msg : Ptr) :
    w.p.publishQ.buf <+: (retryMsg w msg).p.publishQ.buf := by
  unfold retryMsg
  cases w.heap[msg]? with
  | none => exact List.prefix_refl _
  | some m =>
    simp only [Chan.trySend]
    split_ifs
    · exact List.prefix_refl _
    · exact List.prefix_append _ _
    · exact List.prefix_refl _

theorem retryMsg_buf_length_le (w : World) (msg : Ptr)
    (hlen : w.p.publishQ.buf.length ≤ w.p.publishQ.cap) :
    (retryMsg w msg).p.publishQ.buf.length ≤ w.p.publishQ.cap := by
  unfold retryMsg
  cases w.heap[msg]? with
  | none => exact hlen
  | some m =>
    simp only [Chan.trySend]
    split_ifs with h1 h2
    · exact hlen
    · simp only [List.length_append, List.length_singleton]
      exact h2
    · exact hlen

theorem retryMsg_retriesOf_of_ne (w : World) (msg x : Ptr) (hx : x ≠ msg) :
    retriesOf (retryMsg w msg).heap x = retriesOf w.heap x := by
  unfold retryMsg
  cases w.heap[msg]? with
  | none => rfl
  | some m =>
    simp only [Chan.trySend]
    split_ifs <;> exact retriesOf_set_of_ne _ _ _ _ hx

theorem retryMsg_retriesOf_self (w : World) (msg : Ptr) (hmsg : msg < w.heap.length) :
    retriesOf (retryMsg w msg).heap msg = wrapInt (retriesOf w.heap msg + 1) := by
  have hm : w.heap[msg]? = some w.heap[msg] := List.getElem?_eq_getElem hmsg
  rw [retriesOf_of_getElem? _ _ _ hm]
  unfold retryMsg
  rw [hm]
  simp only [Chan.trySend]
  split_ifs <;> exact retriesOf_set_self _ _ _ hmsg

theorem retryMsg_outcome (w : World) (msg : Ptr) (hmsg : msg < w.heap.length) :
    msg ∈ (retryMsg w msg).p.publishQ.buf ∨
    (MaxRetries : Int) ≤ retriesOf (retryMsg w msg).heap msg ∨
    (retryMsg w msg).p.publishQ.cap ≤ (retryMsg w msg).p.publishQ.buf.length := by
  have hm : w.heap[msg]? = some w.heap[msg] := List.getElem?_eq_getElem hmsg
  unfold retryMsg
  rw [hm]
  simp only [Chan.trySend]
  split_ifs with h1 h2
  · right; left
    show (MaxRetries : Int) ≤ retriesOf (w.heap.set msg _) msg
    rw [retriesOf_set_self _ _ _ hmsg]
    exact h1
  · left
    simp
  · right; right
    exact Nat.le_of_not_lt h2

theorem requeueOutstanding_cons (w : World) (msg : Ptr) (msgs : List Ptr) :
    requeueOutstanding w (msg :: msgs) = requeueOutstanding (retryMsg w msg) msgs := rfl

theorem requeueOutstanding_setPc (msgs : List Ptr) (w : World) (pc : Pc) :
    requeueOutstanding { w with pc := pc } msgs = { requeueOutstanding w msgs with pc := pc } := by
  induction msgs generalizing w with
  | nil => rfl
  | cons msg rest ih =>
    rw [requeueOutstanding_cons, requeueOutstanding_cons, retryMsg_setPc, ih]

theorem requeueOutstanding_frame (msgs : List Ptr) (w : World) :
    (requeueOutstanding w msgs).heap.length = w.heap.length ∧
    (requeueOutstanding w msgs).p.publishQ.cap = w.p.publishQ.cap ∧
    w.p.publishQ.buf <+: (requeueOutstanding w msgs).p.publishQ.buf ∧
    (w.p.publishQ.buf.length ≤ w.p.publishQ.cap →
      (requeueOutstanding w msgs).p.publishQ.buf.length ≤ w.p.publishQ.cap) ∧
    ∀ x, x ∉ msgs → retriesOf (requeueOutstanding w msgs).heap x = retriesOf w.heap x := by
  induction msgs generalizing w with
  | nil => exact ⟨rfl, rfl, List.prefix_refl _, fun h => h, fun _ _ => rfl⟩
  | cons msg rest ih =>
    rw [requeueOutstanding_cons]
    obtain ⟨h1, h2, h3, h4, h5⟩ := ih (retryMsg w msg)
    refine ⟨?_, ?_, ?_, ?_, ?_⟩
    · rw [h1, retryMsg_heap_length]
    · rw [h2, retryMsg_cap]
    · exact (retryMsg_buf_grows w msg).trans h3
    · intro hlen
      rw [retryMsg_cap] at h4
      exact h4 (retryMsg_buf_length_le w msg hlen)
    · intro x hx
      rw [List.mem_cons, not_or] at hx
      rw [h5 x hx.2, retryMsg_retriesOf_of_ne w msg x hx.1]

theorem requeueOutstanding_each (msgs : List Ptr) (w : World) (hnd : msgs.Nodup)
    (halloc : ∀ x ∈ msgs, x < w.heap.length) :
    ∀ x ∈ msgs,
      retriesOf (requeueOutstanding w msgs).heap x = wrapInt (retriesOf w.heap x + 1) ∧
      (x ∈ (requeueOutstanding w msgs).p.publishQ.buf ∨
       (MaxRetries : Int) ≤ retriesOf (requeueOutstanding w msgs).heap x ∨
       w.p.publishQ.cap ≤ (requeueOutstanding w msgs).p.publishQ.buf.length) := by
  induction msgs generalizing w with
  | nil => intro x hx; cases hx
  | cons msg rest ih =>
    intro x hx
    rw [requeueOutstanding_cons]
    obtain ⟨hnot, hnd1⟩ := List.nodup_cons.mp hnd
    have hmsg : msg < w.heap.length := halloc msg (List.mem_cons_self _ _)
    obtain ⟨-, f2, f3, -, f5⟩ := requeueOutstanding_frame rest (retryMsg w msg)
    rw [retryMsg_cap] at f2
    rcases List.mem_cons.mp hx with hx | hx
    · subst hx
      rw [f5 x hnot, retryMsg_retriesOf_self w x hmsg]
      refine ⟨rfl, ?_⟩
      rcases retryMsg_outcome w x hmsg with h | h | h
      · exact Or.inl (f3.subset h)
      · rw [retryMsg_retriesOf_self w x hmsg] at h
        exact Or.inr (Or.inl h)
      · rw [retryMsg_cap] at h
        exact Or.inr (Or.inr (le_trans h f3.length_le))
    · have hne : x ≠ msg := fun e => hnot (e ▸ hx)
      have h1 := ih (retryMsg w msg) hnd1
        (fun y hy => by
          rw [retryMsg_heap_length]
          exact halloc y (List.mem_cons_of_mem _ hy)) x hx
      rw [retryMsg_retriesOf_of_ne w msg x hne, retryMsg_cap] at h1
      exact h1


theorem mapGet_of_mem (m : TagMap) (t : Nat) (v : Ptr) (hnd : (mapKeys m).Nodup)
    (hmem : (t, v) ∈ m) : mapGet m t = some v := by
  induction m with
  | nil => cases hmem
  | cons e rest ih =>
    obtain ⟨k, u⟩ := e
    have hnd1 : k ∉ mapKeys rest ∧ (mapKeys rest).Nodup := List.nodup_cons.mp hnd
    rw [mapGet_cons]
    rcases List.mem_cons.mp hmem with h | h
    · cases h
      rw [if_pos rfl]
    · have hne : k ≠ t := by
        rintro rfl
        exact hnd1.1 (List.mem_map_of_mem Prod.fst h)
      rw [if_neg hne]
      exact ih hnd1.2 h

theorem mapDelete_of_not_mem (m : TagMap) (t : Nat) (h : t ∉ mapKeys m) : mapDelete m t = m := by
  unfold mapDelete
  rw [List.filter_eq_self]
  intro e he
  have hne : e.1 ≠ t := by
    rintro rfl
    exact h (List.mem_map_of_mem Prod.fst he)
  simpa using hne

theorem run_deferNext {Body : Type} (jsonMarshal : Body → Except GoError (List UInt8))
    (order : TagMap) (w : World) (ret : GoError) (remaining : TagMap)
    (hpc : w.pc = .deferred ret remaining) (hkeys : (mapKeys remaining).Nodup)
    (horder : order.Perm remaining) :
    run jsonMarshal w ((mapKeys order).map Event.deferNext)
      = some { requeueOutstanding w (mapValues order) with pc := .deferred ret [] } := by
  induction order generalizing w remaining with
  | nil =>
    have hnil : remaining = [] := List.Perm.eq_nil horder.symm
    subst hnil
    show some w = some { w with pc := .deferred ret [] }
    rw [← hpc]
  | cons e rest ih =>
    obtain ⟨t, m⟩ := e
    have hmem : (t, m) ∈ remaining := horder.subset (List.mem_cons_self _ _)
    have hget : mapGet remaining t = some m := mapGet_of_mem remaining t m hkeys hmem
    have hkeys1 : (mapKeys ((t, m) :: rest)).Nodup := (horder.map Prod.fst).nodup_iff.mpr hkeys
    have hnot : t ∉ mapKeys rest := (List.nodup_cons.mp hkeys1).1
    have hperm : rest.Perm (mapDelete remaining t) := by
      have h1 : (mapDelete ((t, m) :: rest) t).Perm (mapDelete remaining t) :=
        List.Perm.filter _ horder
      rw [mapDelete_cons, if_pos rfl, mapDelete_of_not_mem rest t hnot] at h1
      exact h1
    have hstep : step jsonMarshal w (.deferNext t)
        = some (retryMsg { w with pc := .deferred ret (mapDelete remaining t) } m) := by
      simp only [step, hpc, hget]
    have hrest := ih (retryMsg { w with pc := .deferred ret (mapDelete remaining t) } m)
      (mapDelete remaining t) (by rw [retryMsg_pc])
      ((List.filter_sublist remaining).map Prod.fst |>.nodup hkeys) hperm
    show run jsonMarshal w (Event.deferNext t :: (mapKeys rest).map Event.deferNext) = _
    simp only [run, hstep]
    rw [hrest, retryMsg_setPc, requeueOutstanding_setPc]
    rfl

set_option maxRecDepth 100000 in
/-- C2 as stated fails: the epoch of `exampleLossRun` ends with message 0 as
its one unconfirmed message while the queue holds 100 messages; after the
deferred loop the message is not in the queue although its counter, 1, is
below the ceiling. -/
theorem deferred_requeue_counterexample :
    (run exampleMarshal exampleStart exampleLossRun.dropLast).map
        (fun w => (w.pc, retriesOf w.heap 0, w.p.publishQ.buf.length))
      = some (.deferred (.wrapped "channel or connection closed" (.text "connection reset"))
          [(1, 0)], 0, 100) ∧
    (run exampleMarshal exampleStart exampleLossRun).map
        (fun w => (w.pc, retriesOf w.heap 0, decide (0 ∈ w.p.publishQ.buf),
          w.p.publishQ.buf.length))
      = some (.deferred (.wrapped "channel or connection closed" (.text "connection reset"))
          [], 1, false, 100) := by
  constructor <;> decide


/-! ## The sequence of delivery tags (C4) -/

theorem Publish_pc {Body : Type} (jsonMarshal : Body → Except GoError (List UInt8))
    (w : World) (ctx : Option GoError) (key : String) (body : Body) :
    ∀ o ∈ Publish jsonMarshal w ctx key body, o.2.pc = w.pc := by
  intro o ho
  unfold Publish at ho
  cases hj : jsonMarshal body with
  | error err =>
    simp only [hj, List.mem_singleton] at ho
    subst ho
    rfl
  | ok bodyRaw =>
    simp only [hj, Chan.trySend, List.mem_append] at ho
    rcases ho with (ho | ho) | ho
    · split_ifs at ho
      · simp only [List.mem_singleton] at ho
        subst ho
        rfl
      · cases ho
    · cases hc : ctx with
      | none => simp [hc] at ho
      | some e =>
        simp only [hc, List.mem_singleton] at ho
        subst ho
        rfl
    · cases hc : w.p.ctx with
      | none => simp [hc] at ho
      | some e =>
        simp only [hc, List.mem_singleton] at ho
        subst ho
        rfl

theorem tag_step {Body : Type} (jsonMarshal : Body → Except GoError (List UInt8))
    (w w1 : World) (e : Event Body) (t1 : Nat)
    (hs : step jsonMarshal w e = some w1) (he : e.isConnect = false)
    (ht : w1.pc.tag = some t1) :
    ∃ t, w.pc.tag = some t ∧ t1 = if e.isSendOk then (t + 1) % 2 ^ 64 else t := by
  cases e with
  | callerPublish ctx key body choice =>
    simp only [step, Option.map_eq_some'] at hs
    obtain ⟨o, ho, rfl⟩ := hs
    rw [Publish_pc jsonMarshal w ctx key body o (List.getElem?_mem ho)] at ht
    exact ⟨t1, ht, rfl⟩
  | cancel err =>
    simp only [step] at hs
    cases hc : w.p.ctx with
    | none =>
      simp only [hc, Option.some.injEq] at hs
      subst hs
      exact ⟨t1, ht, rfl⟩
    | some e => simp [hc] at hs
  | connect result => cases he
  | ctxDone =>
    cases hpc : w.pc <;> cases hc : w.p.ctx <;> simp [step, hpc, hc] at hs
    subst hs
    cases ht
  | closed err =>
    cases hpc : w.pc <;> simp [step, hpc] at hs
    subst hs
    cases ht
  | dequeue =>
    cases hpc : w.pc <;> cases hq : w.p.publishQ.buf <;> simp [step, hpc, hq] at hs
    subst hs
    simp only [Pc.tag, Option.some.injEq] at ht
    exact ⟨t1, by rw [ht]; rfl, rfl⟩
  | publishReturns result =>
    cases hpc : w.pc <;> cases result <;> simp [step, hpc] at hs
    · subst hs
      simp only [Pc.tag, Option.some.injEq] at ht
      exact ⟨_, rfl, ht.symm⟩
    · subst hs
      cases ht
  | confirm conf =>
    cases hpc : w.pc with
    | selecting t o =>
      cases conf with
      | none =>
        simp only [step, hpc, Option.some.injEq] at hs
        subst hs
        cases ht
      | some c =>
        obtain ⟨tag, success⟩ := c
        cases hget : mapGet o tag with
        | none =>
          simp only [step, hpc, hget, Option.some.injEq] at hs
          subst hs
          rw [hpc] at ht
          exact ⟨t1, ht, rfl⟩
        | some msg =>
          cases success with
          | true =>
            simp only [step, hpc, hget, if_true, Option.some.injEq] at hs
            subst hs
            exact ⟨t1, ht, rfl⟩
          | false =>
            simp only [step, hpc, hget, Bool.false_eq_true, if_false, Option.some.injEq] at hs
            subst hs
            rw [retryMsg_pc] at ht
            exact ⟨t1, ht, rfl⟩
    | outside => cases conf <;> simp [step, hpc] at hs
    | publishing msg t o => cases conf <;> simp [step, hpc] at hs
    | deferred ret o => cases conf <;> simp [step, hpc] at hs
    | stopped => cases conf <;> simp [step, hpc] at hs
  | deferNext tag =>
    cases hpc : w.pc with
    | deferred ret o =>
      cases hget : mapGet o tag with
      | none => simp [step, hpc, hget] at hs
      | some msg =>
        simp only [step, hpc, hget, Option.some.injEq] at hs
        subst hs
        rw [retryMsg_pc] at ht
        cases ht
    | outside => simp [step, hpc] at hs
    | selecting t o => simp [step, hpc] at hs
    | publishing msg t o => simp [step, hpc] at hs
    | stopped => simp [step, hpc] at hs
  | deferDone =>
    cases hpc : w.pc with
    | deferred ret o =>
      cases o with
      | nil =>
        simp only [step, hpc, Option.some.injEq] at hs
        subst hs
        simp only [afterReturn] at ht
        cases hc : w.p.ctx <;> simp [hc, Pc.tag] at ht
      | cons e rest => simp [step, hpc] at hs
    | outside => simp [step, hpc] at hs
    | selecting t o => simp [step, hpc] at hs
    | publishing msg t o => simp [step, hpc] at hs
    | stopped => simp [step, hpc] at hs


theorem sendsOk_cons {Body : Type} (e : Event Body) (es : List (Event Body)) :
    sendsOk (e :: es) = sendsOk es + if e.isSendOk then 1 else 0 := by
  unfold sendsOk
  rw [List.countP_cons]

theorem tag_run {Body : Type} (jsonMarshal : Body → Except GoError (List UInt8))
    (evs : List (Event Body)) (w w1 : World) (t1 : Nat)
    (hr : run jsonMarshal w evs = some w1) (he : ∀ e ∈ evs, e.isConnect = false)
    (ht : w1.pc.tag = some t1) :
    ∃ t, w.pc.tag = some t ∧ (t < 2 ^ 64 → t1 = (t + sendsOk evs) % 2 ^ 64) := by
  induction evs generalizing w with
  | nil =>
    simp only [run, Option.some.injEq] at hr
    subst hr
    refine ⟨t1, ht, fun h => ?_⟩
    simp only [sendsOk, List.countP_nil, Nat.add_zero]
    exact (Nat.mod_eq_of_lt h).symm
  | cons e es ih =>
    cases hs : step jsonMarshal w e with
    | none => simp [run, hs] at hr
    | some w2 =>
      simp only [run, hs] at hr
      obtain ⟨t2, ht2, h2⟩ := ih w2 hr (fun x hx => he x (List.mem_cons_of_mem _ hx))
      obtain ⟨t, htw, h3⟩ :=
        tag_step jsonMarshal w w2 e t2 hs (he e (List.mem_cons_self _ _)) ht2
      refine ⟨t, htw, fun hlt => ?_⟩
      rw [sendsOk_cons]
      cases hso : e.isSendOk with
      | true =>
        simp only [hso, if_true] at h3 ⊢
        have h4 := h2 (by rw [h3]; exact Nat.mod_lt _ (by decide))
        rw [h4, h3]
        omega
      | false =>
        simp only [hso, Bool.false_eq_true, if_false, Nat.add_zero] at h3 ⊢
        have h4 := h2 (by rw [h3]; exact hlt)
        rw [h4, h3]

/-- C4: every call of `connectAndLoopPublish` that connects starts its loop
with `nextMsgTag = 1` and an empty `outstandingMsgs`, whatever the world
before the call; and in the epoch that follows, when `i - 1` transport
publish calls have succeeded and one more returns with success (`i` below
`2 ^ 64`, the range of the `uint64` tag), the message of that call is recorded
in `outstandingMsgs` under tag `i`: tags are given out as 1, 2, 3, ... in the
order of the successful sends. -/
theorem tags_sequential {Body : Type} (jsonMarshal : Body → Except GoError (List UInt8))
    (wprev w0 w : World) (evs : List (Event Body)) (msg : Ptr) (nextMsgTag : Nat)
    (outstandingMsgs : TagMap)
    (hconn : step jsonMarshal wprev (.connect none) = some w0)
    (hsame : ∀ e ∈ evs, e.isConnect = false)
    (hrun : run jsonMarshal w0 evs = some w)
    (hpc : w.pc = .publishing msg nextMsgTag outstandingMsgs)
    (hi : sendsOk evs + 1 < 2 ^ 64) :
    w0.pc = .selecting 1 [] ∧
    nextMsgTag = sendsOk evs + 1 ∧
    step jsonMarshal w (.publishReturns none)
      = some { w with
          pc := .selecting ((sendsOk evs + 2) % 2 ^ 64)
            (mapSet outstandingMsgs (sendsOk evs + 1) msg) } ∧
    mapGet (mapSet outstandingMsgs (sendsOk evs + 1) msg) (sendsOk evs + 1) = some msg := by
  have h0 : w0.pc = .selecting 1 [] := by
    cases hp : wprev.pc <;> simp [step, hp] at hconn
    subst hconn
    rfl
  obtain ⟨t, ht, h1⟩ := tag_run jsonMarshal evs w0 w nextMsgTag hrun hsame (by rw [hpc]; rfl)
  rw [h0] at ht
  simp only [Pc.tag, Option.some.injEq] at ht
  subst ht
  have h2 : nextMsgTag = sendsOk evs + 1 := by
    rw [h1 (by decide), Nat.add_comm]
    exact Nat.mod_eq_of_lt hi
  refine ⟨h0, h2, ?_, mapGet_mapSet_self _ _ _⟩
  simp only [step, hpc, h2]


/-- C4, at a concrete run: the epoch starts at tag 1, the first message is
recorded under tag 1 and the second one under tag 2. -/
theorem tags_sequential_witness :
    step exampleMarshal exampleTwoSent (.publishReturns none)
      = some { exampleTwoSent with pc := .selecting 3 [(2, 1), (1, 0)] } :=
  (tags_sequential exampleMarshal exampleTwoQueued
    { exampleTwoQueued with pc := .selecting 1 [] } exampleTwoSent
    [.dequeue, .publishReturns none, .dequeue] 1 2 [(1, 0)]
    rfl (by decide) (by decide) rfl (by decide)).2.2.1


/-! ## The errors of the public call (C11) -/

/-- C11, as amended: the errors that `Publish` returns are the wrapped error
of `json.Marshal`, the caller's context error and the wrapped error of the
producer's context, each only in its own situation; and for a body that
`json.Marshal` accepts, when neither context has ended, no outcome of
`Publish` is an error. -/
theorem Publish_errors {Body : Type} (jsonMarshal : Body → Except GoError (List UInt8))
    (w : World) (ctx : Option GoError) (key : String) (body : Body) :
    (∀ o ∈ Publish jsonMarshal w ctx key body,
      o.1 = none ∨
      (∃ e, jsonMarshal body = .error e ∧
        o.1 = some (.wrapped "failed to marshal body to json" e)) ∨
      (∃ e, ctx = some e ∧ o.1 = some e) ∨
      (∃ e, w.p.ctx = some e ∧ o.1 = some (.wrapped "producer context done" e))) ∧
    (∀ bodyRaw, jsonMarshal body = .ok bodyRaw → ctx = none → w.p.ctx = none →
      ∀ o ∈ Publish jsonMarshal w ctx key body, o.1 = none) := by
  have hall : ∀ o ∈ Publish jsonMarshal w ctx key body,
      o.1 = none ∨
      (∃ e, jsonMarshal body = .error e ∧
        o.1 = some (.wrapped "failed to marshal body to json" e)) ∨
      (∃ e, ctx = some e ∧ o.1 = some e) ∨
      (∃ e, w.p.ctx = some e ∧ o.1 = some (.wrapped "producer context done" e)) := by
    intro o ho
    unfold Publish at ho
    cases hj : jsonMarshal body with
    | error err =>
      simp only [hj, List.mem_singleton] at ho
      subst ho
      exact Or.inr (Or.inl ⟨err, rfl, rfl⟩)
    | ok bodyRaw =>
      simp only [hj, Chan.trySend, List.mem_append] at ho
      rcases ho with (ho | ho) | ho
      · split_ifs at ho
        · simp only [List.mem_singleton] at ho
          subst ho
          exact Or.inl rfl
        · cases ho
      · cases hc : ctx with
        | none => simp [hc] at ho
        | some e =>
          simp only [hc, List.mem_singleton] at ho
          subst ho
          exact Or.inr (Or.inr (Or.inl ⟨e, rfl, rfl⟩))
      · cases hc : w.p.ctx with
        | none => simp [hc] at ho
        | some e =>
          simp only [hc, List.mem_singleton] at ho
          subst ho
          exact Or.inr (Or.inr (Or.inr ⟨e, rfl, rfl⟩))
  refine ⟨hall, ?_⟩
  intro bodyRaw hj hc hp o ho
  rcases hall o ho with h | ⟨e, he, -⟩ | ⟨e, he, -⟩ | ⟨e, he, -⟩
  · exact h
  · rw [hj] at he; cases he
  · rw [hc] at he; cases he
  · rw [hp] at he; cases he

/-- C11 as amended, at a concrete input: with a body that encodes, room in
the queue and live contexts, the first outcome of `Publish` is `nil`. -/
theorem Publish_errors_witness :
    ((Publish exampleMarshal exampleStart none "k" (some [1])).getD 0
      (some .canceled, exampleStart)).1 = none :=
  (Publish_errors exampleMarshal exampleStart none "k" (some [1])).2 [1] rfl rfl rfl _
    (by decide)

/-- C11 as stated fails: neither context has ended, and `Publish` returns an
error for a body that `json.Marshal` rejects. -/
theorem Publish_errors_counterexample :
    exampleStart.p.ctx = none ∧
    (Publish exampleMarshal exampleStart none "k" none).map Prod.fst
      = [some (.wrapped "failed to marshal body to json"
          (.text "json: unsupported type: chan int"))] := by
  constructor <;> rfl

/-! ## The fields of a new message (C15) -/

/-- C15: the message built by `newPublishMessage` has content type
`application/json`, empty content encoding, delivery mode `amqp.Transient`
(the value 1), priority 1, empty headers, the given bytes as body, the
exchange of the producer and attempt counter 0. -/
theorem newPublishMessage_fields (p : amqpProducer) (key : String) (bodyRaw : List UInt8) :
    (newPublishMessage p key bodyRaw).ContentType = "application/json" ∧
    (newPublishMessage p key bodyRaw).ContentEncoding = "" ∧
    (newPublishMessage p key bodyRaw).DeliveryMode = Transient ∧
    (newPublishMessage p key bodyRaw).DeliveryMode = 1 ∧
    (newPublishMessage p key bodyRaw).Priority = 1 ∧
    (newPublishMessage p key bodyRaw).Headers = [] ∧
    (newPublishMessage p key bodyRaw).Body = bodyRaw ∧
    (newPublishMessage p key bodyRaw).Exchange = p.exchange ∧
    (newPublishMessage p key bodyRaw).retries = 0 :=
  ⟨rfl, rfl, rfl, rfl, rfl, rfl, rfl, rfl, rfl⟩

/-! ## A failing transport publish call goes through the retry policy (C13) -/

/-- C13, as amended: when the transport publish call for `msg` fails, the
message goes through `retryMsg`: its counter goes up by one (as a Go `int`
does, which is `r + 1` for every counter `r` but the largest `int`) and it is
put back into the queue unless the counter has reached `MaxRetries = 3` or
the queue is full; and a negative confirmation for the same message in a world
with the same heap and queue leaves exactly the same heap and queue. -/
theorem publish_failure_retries {Body : Type}
    (jsonMarshal : Body → Except GoError (List UInt8))
    (w : World) (msg : Ptr) (nextMsgTag : Nat) (outstandingMsgs : TagMap) (err : GoError)
    (m : publishMessage)
    (hpc : w.pc = .publishing msg nextMsgTag outstandingMsgs)
    (hm : w.heap[msg]? = some m) :
    step jsonMarshal w (.publishReturns (some err))
      = some { retryMsg w msg with pc := .deferred err outstandingMsgs } ∧
    (retriesOf (retryMsg w msg).heap msg = wrapInt (m.retries + 1) ∧
      (-(2 ^ 63) ≤ m.retries → m.retries < 2 ^ 63 - 1 →
        retriesOf (retryMsg w msg).heap msg = m.retries + 1)) ∧
    (retryMsg w msg).p.publishQ.buf =
      (if 3 ≤ wrapInt (m.retries + 1) then w.p.publishQ.buf
       else if w.p.publishQ.buf.length < w.p.publishQ.cap then w.p.publishQ.buf ++ [msg]
       else w.p.publishQ.buf) ∧
    ∀ (tag t : Nat) (o : TagMap), mapGet o tag = some msg →
      step jsonMarshal { w with pc := .selecting t o } (.confirm (some (tag, false)))
        = some { retryMsg w msg with pc := .selecting t (mapDelete o tag) } := by
  have hlt : msg < w.heap.length := by
    rcases Nat.lt_or_ge msg w.heap.length with h | h
    · exact h
    · rw [List.getElem?_eq_none h] at hm; cases hm
  refine ⟨?_, ?_, ?_, ?_⟩
  · simp only [step, hpc]
  · have hcounter : retriesOf (retryMsg w msg).heap msg = wrapInt (m.retries + 1) := by
      rw [retryMsg_retriesOf_self w msg hlt, retriesOf_of_getElem? _ _ _ hm]
    refine ⟨hcounter, fun hlo hhi => ?_⟩
    rw [hcounter]
    exact wrapInt_of_range _ (by omega) (by omega)
  · have hcast : ((MaxRetries : Nat) : Int) = 3 := rfl
    unfold retryMsg
    rw [hm]
    simp only [Chan.trySend, hcast]
    split_ifs <;> rfl
  · intro tag t o hget
    simp only [step, hget, Bool.false_eq_true, if_false, retryMsg_setPc]

/-- C13 as amended, at a concrete input: the publish call for the only
message fails and the message is back in the queue with counter 1. -/
theorem publish_failure_retries_witness :
    step exampleMarshal (exampleEpoch (.publishing 0 1 []))
        (.publishReturns (some (.text "write: broken pipe")))
      = some { retryMsg (exampleEpoch (.publishing 0 1 [])) 0 with
          pc := .deferred (.text "write: broken pipe") [] } ∧
    retriesOf (retryMsg (exampleEpoch (.publishing 0 1 [])) 0).heap 0 = 0 + 1 :=
  ⟨(publish_failure_retries exampleMarshal (exampleEpoch (.publishing 0 1 [])) 0 1 []
      (.text "write: broken pipe") (newPublishMessage exampleProducer "k" []) rfl rfl).1,
   (publish_failure_retries exampleMarshal (exampleEpoch (.publishing 0 1 [])) 0 1 []
      (.text "write: broken pipe") (newPublishMessage exampleProducer "k" []) rfl rfl).2.1.2
      (by decide) (by decide)⟩

/-- C13 as stated fails: after a failing transport publish call the counter
of the message is 1, not 0, and the message is in the queue again. -/
theorem publish_failure_counterexample :
    retriesOf (exampleEpoch (.publishing 0 1 [])).heap 0 = 0 ∧
    (exampleEpoch (.publishing 0 1 [])).p.publishQ.buf = [] ∧
    (step exampleMarshal (exampleEpoch (.publishing 0 1 []))
        (.publishReturns (some (.text "write: broken pipe")))).map
        (fun w => (retriesOf w.heap 0, w.p.publishQ.buf, w.pc))
      = some (1, [0], .deferred (.text "write: broken pipe") []) := by
  refine ⟨by decide, by decide, by decide⟩


/-! ## The delay between connection attempts (C14) -/

/-- C14, as amended: in `mainLoop`, when a call of `connectAndLoopPublish`
that began at `s1` returns at `r1` and the producer's lifetime has not ended,
the next call begins once the call has returned and `RetryMinDelay = 5`
seconds have passed since `s1`, the time the timer was armed before the
call: it begins at `max r1 (s1 + 5)` plus the latency of the scheduler, so
never before `s1 + 5` and never before `r1`. -/
theorem mainLoop_delay (its : List Iteration) (now i : Nat) (it : Iteration)
    (s1 r1 s2 r2 : Nat)
    (hit : its[i]? = some it)
    (h1 : (mainLoop now its)[i]? = some (s1, r1))
    (h2 : (mainLoop now its)[i + 1]? = some (s2, r2)) :
    r1 = s1 + it.epoch ∧ s2 = max r1 (s1 + 5) + it.latency ∧ s1 + 5 ≤ s2 ∧ r1 ≤ s2 := by
  induction its generalizing now i with
  | nil => simp at hit
  | cons a rest ih =>
    cases i with
    | zero =>
      simp only [List.getElem?_cons_zero, Option.some.injEq] at hit
      subst hit
      simp only [mainLoop, List.getElem?_cons_zero, Option.some.injEq, Prod.mk.injEq] at h1
      obtain ⟨hs, hr⟩ := h1
      subst hs
      subst hr
      rw [mainLoop, List.getElem?_cons_succ] at h2
      cases hend : a.ended with
      | true => simp [hend] at h2
      | false =>
        simp only [hend, Bool.false_eq_true, if_false] at h2
        cases rest with
        | nil => simp [mainLoop] at h2
        | cons b rest2 =>
          simp only [mainLoop, List.getElem?_cons_zero, Option.some.injEq, Prod.mk.injEq] at h2
          obtain ⟨hs2, -⟩ := h2
          simp only [RetryMinDelay] at hs2
          refine ⟨rfl, hs2.symm, ?_, ?_⟩ <;> omega
    | succ j =>
      simp only [List.getElem?_cons_succ] at hit
      rw [mainLoop, List.getElem?_cons_succ] at h1 h2
      cases hend : a.ended with
      | true => simp [hend] at h1
      | false =>
        simp only [hend, Bool.false_eq_true, if_false] at h1 h2
        exact ih _ j hit h1 h2

/-- C14 as amended, at a concrete input: an epoch of 2 seconds that begins
at time 0 is followed by the next attempt at time 5. -/
theorem mainLoop_delay_witness :
    mainLoop 0
        [{ epoch := 2, ended := false, latency := 0 },
         { epoch := 1, ended := false, latency := 0 }]
      = [(0, 2), (5, 6)] ∧
    ((2 : Nat) = 0 + 2 ∧ (5 : Nat) = max 2 (0 + 5) + 0 ∧ 0 + 5 ≤ 5 ∧ 2 ≤ 5) :=
  ⟨by decide,
   mainLoop_delay
    [{ epoch := 2, ended := false, latency := 0 }, { epoch := 1, ended := false, latency := 0 }]
    0 0 { epoch := 2, ended := false, latency := 0 } 0 2 5 6 rfl rfl rfl⟩

/-- C14 as stated fails: an epoch that begins at time 0 and returns at time
10 is followed by the next call at time 10, less than 5 seconds after the
return. -/
theorem mainLoop_delay_counterexample :
    mainLoop 0
        [{ epoch := 10, ended := false, latency := 0 },
         { epoch := 1, ended := false, latency := 0 }]
      = [(0, 10), (10, 11)] ∧
    ¬ (10 + RetryMinDelay ≤ 10) := by
  constructor <;> decide


/-! ## No duplicates and no exhausted message in flight (C16) -/

/-- C16: in every world reached by a run from the world returned by the
constructor, no message occurs twice in the publish queue together with the
messages held by the worker (the values of `outstandingMsgs` and the message
of a pending transport call), and each of these messages has a counter below
`MaxRetries = 3`. -/
theorem no_duplicate_no_exhausted {Body Env : Type}
    (jsonMarshal : Body → Except GoError (List UInt8))
    (connectFn : Env → ConnectCall → Option GoError × Env) (env : Env)
    (ctx : Option GoError) (uri exchange queue keyNs : String) (w0 : World)
    (hnew : (newAMQPProducerInternal connectFn env ctx uri exchange queue keyNs).producer
      = some w0)
    (evs : List (Event Body)) (w : World) (hrun : run jsonMarshal w0 evs = some w) :
    (w.p.publishQ.buf ++ w.pc.held).Nodup ∧
    (∀ msg, (w.p.publishQ.buf ++ w.pc.held).count msg ≤ 1) ∧
    ∀ msg ∈ w.p.publishQ.buf ++ w.pc.held, retriesOf w.heap msg < 3 := by
  obtain ⟨hheap, hq, hpc, hsent⟩ :=
    newAMQPProducerInternal_start connectFn env ctx uri exchange queue keyNs w0 hnew
  have h0 : Inv w0 := Inv_of_empty w0 hheap (by rw [hq]) hpc hsent
  have h := Inv_run jsonMarshal evs w0 w h0 hrun
  refine ⟨h.nodup, fun msg => List.nodup_iff_count_le_one.mp h.nodup msg, ?_⟩
  intro msg hmsg
  rcases List.mem_append.mp hmsg with hm | hm
  · exact (h.queued msg hm).1
  · exact (h.inHand msg hm).1

/-- C16, at a concrete run: two messages are published, the first one is
sent; the second one is in the queue, the first one in the map, no message is
in both. -/
theorem no_duplicate_no_exhausted_witness :
    run exampleMarshal exampleStart
        [.callerPublish none "k" (some [1]) 0, .callerPublish none "k" (some [2]) 0,
         .connect none, .dequeue, .publishReturns none]
      = some exampleQueuedAndSent ∧
    (exampleQueuedAndSent.p.publishQ.buf ++ exampleQueuedAndSent.pc.held).Nodup :=
  ⟨by decide,
   (no_duplicate_no_exhausted exampleMarshal (exampleConnect true) 0 none "amqp://localhost"
      "ex" "q" "ns" exampleStart rfl
      [.callerPublish none "k" (some [1]) 0, .callerPublish none "k" (some [2]) 0,
       .connect none, .dequeue, .publishReturns none]
      exampleQueuedAndSent (by decide)).1⟩

/-! ## How many messages the deferred loop puts back (C17) -/

theorem eligible_retryMsg_of_ne (w : World) (msg x : Ptr) (hx : x ≠ msg) :
    eligible (retryMsg w msg).heap x = eligible w.heap x := by
  unfold eligible
  rw [retryMsg_retriesOf_of_ne w msg x hx]

theorem retryMsg_buf_length (w : World) (msg : Ptr) (hmsg : msg < w.heap.length) :
    (retryMsg w msg).p.publishQ.buf.length
      = w.p.publishQ.buf.length +
        if eligible w.heap msg = true ∧ w.p.publishQ.buf.length < w.p.publishQ.cap then 1 else 0 := by
  have hm : w.heap[msg]? = some w.heap[msg] := List.getElem?_eq_getElem hmsg
  have hr : retriesOf w.heap msg = (w.heap[msg]).retries := retriesOf_of_getElem? _ _ _ hm
  unfold retryMsg eligible
  rw [hm, hr]
  simp only [Chan.trySend, decide_eq_true_eq]
  split_ifs <;> simp at * <;> omega

theorem requeueOutstanding_length (msgs : List Ptr) (w : World) (hnd : msgs.Nodup)
    (halloc : ∀ x ∈ msgs, x < w.heap.length)
    (hlen : w.p.publishQ.buf.length ≤ w.p.publishQ.cap) :
    (requeueOutstanding w msgs).p.publishQ.buf.length
      = w.p.publishQ.buf.length
        + min (msgs.countP (eligible w.heap)) (w.p.publishQ.cap - w.p.publishQ.buf.length) := by
  induction msgs generalizing w with
  | nil => simp [requeueOutstanding]
  | cons msg rest ih =>
    obtain ⟨hnot, hnd1⟩ := List.nodup_cons.mp hnd
    have hmsg : msg < w.heap.length := halloc msg (List.mem_cons_self _ _)
    have hlen1 := retryMsg_buf_length_le w msg hlen
    have h1 := ih (retryMsg w msg) hnd1
      (fun y hy => by
        rw [retryMsg_heap_length]
        exact halloc y (List.mem_cons_of_mem _ hy))
      (by rw [retryMsg_cap]; exact hlen1)
    have hcount : rest.countP (eligible (retryMsg w msg).heap) = rest.countP (eligible w.heap) := by
      apply List.countP_congr
      intro x hx
      have hne : x ≠ msg := fun e => hnot (e ▸ hx)
      rw [eligible_retryMsg_of_ne w msg x hne]
    rw [requeueOutstanding_cons, h1, hcount, retryMsg_cap, retryMsg_buf_length w msg hmsg,
      List.countP_cons]
    split_ifs with hc he he
    · omega
    · exact absurd hc.1 he
    · simp only [not_and, not_lt] at hc
      have := hc he
      omega
    · omega


theorem retryMsg_buf_added (w : World) (msg : Ptr) (hmsg : msg < w.heap.length) :
    ∃ added : List Ptr,
      (retryMsg w msg).p.publishQ.buf = w.p.publishQ.buf ++ added ∧
      added.Sublist [msg] ∧ ∀ x ∈ added, eligible w.heap x = true := by
  have hm : w.heap[msg]? = some w.heap[msg] := List.getElem?_eq_getElem hmsg
  have hr : retriesOf w.heap msg = (w.heap[msg]).retries := retriesOf_of_getElem? _ _ _ hm
  unfold retryMsg
  rw [hm]
  simp only [Chan.trySend]
  split_ifs with h1 h2
  · exact ⟨[], by simp, List.nil_sublist _, fun x hx => by cases hx⟩
  · refine ⟨[msg], rfl, List.Sublist.refl _, fun x hx => ?_⟩
    rw [List.mem_singleton] at hx
    subst hx
    unfold eligible
    rw [hr]
    exact decide_eq_true (lt_of_not_le h1)
  · exact ⟨[], by simp, List.nil_sublist _, fun x hx => by cases hx⟩

theorem requeueOutstanding_added (msgs : List Ptr) (w : World) (hnd : msgs.Nodup)
    (halloc : ∀ x ∈ msgs, x < w.heap.length) :
    ∃ added : List Ptr,
      (requeueOutstanding w msgs).p.publishQ.buf = w.p.publishQ.buf ++ added ∧
      added.Sublist msgs ∧ ∀ x ∈ added, eligible w.heap x = true := by
  induction msgs generalizing w with
  | nil => exact ⟨[], by simp [requeueOutstanding], List.Sublist.refl _, fun x hx => by cases hx⟩
  | cons msg rest ih =>
    obtain ⟨hnot, hnd1⟩ := List.nodup_cons.mp hnd
    have hmsg : msg < w.heap.length := halloc msg (List.mem_cons_self _ _)
    obtain ⟨a1, hb1, hs1, he1⟩ := retryMsg_buf_added w msg hmsg
    obtain ⟨a2, hb2, hs2, he2⟩ := ih (retryMsg w msg) hnd1
      (fun y hy => by
        rw [retryMsg_heap_length]
        exact halloc y (List.mem_cons_of_mem _ hy))
    refine ⟨a1 ++ a2, ?_, ?_, ?_⟩
    · rw [requeueOutstanding_cons, hb2, hb1, List.append_assoc]
    · exact List.Sublist.append hs1 hs2
    · intro x hx
      rcases List.mem_append.mp hx with hx | hx
      · exact he1 x hx
      · have hxr : x ∈ rest := hs2.subset hx
        have hne : x ≠ msg := fun e => hnot (e ▸ hxr)
        rw [← eligible_retryMsg_of_ne w msg x hne]
        exact he2 x hx

theorem countP_not_mem_of_sublist (l added : List Ptr) (hnd : l.Nodup) (hs : added.Sublist l) :
    l.countP (fun x => decide (x ∉ added)) = l.length - added.length := by
  induction hs with
  | slnil => rfl
  | @cons a1 l1 a hs1 ih =>
    obtain ⟨hnot, hnd1⟩ := List.nodup_cons.mp hnd
    have ha : a ∉ a1 := fun h => hnot (hs1.subset h)
    have hle := hs1.length_le
    rw [List.countP_cons, ih hnd1]
    simp only [ha, not_false_eq_true, decide_True, if_true, List.length_cons]
    omega
  | @cons₂ a1 l1 a hs1 ih =>
    obtain ⟨hnot, hnd1⟩ := List.nodup_cons.mp hnd
    have hcongr : l1.countP (fun x => decide (x ∉ a :: a1))
        = l1.countP (fun x => decide (x ∉ a1)) := by
      apply List.countP_congr
      intro x hx
      have hne : x ≠ a := fun e => hnot (e ▸ hx)
      simp [hne]
    rw [List.countP_cons, hcongr, ih hnd1]
    simp


theorem requeueOutstanding_lost (msgs : List Ptr) (w : World) (hnd : msgs.Nodup)
    (halloc : ∀ x ∈ msgs, x < w.heap.length)
    (hlen : w.p.publishQ.buf.length ≤ w.p.publishQ.cap)
    (hfresh : ∀ x ∈ msgs, x ∉ w.p.publishQ.buf) :
    msgs.countP (fun x => eligible w.heap x &&
        decide (x ∉ (requeueOutstanding w msgs).p.publishQ.buf))
      = msgs.countP (eligible w.heap)
        - min (msgs.countP (eligible w.heap)) (w.p.publishQ.cap - w.p.publishQ.buf.length) := by
  obtain ⟨added, hb, hs, he⟩ := requeueOutstanding_added msgs w hnd halloc
  have hlength := requeueOutstanding_length msgs w hnd halloc hlen
  rw [hb, List.length_append] at hlength
  have hadded : added.length
      = min (msgs.countP (eligible w.heap)) (w.p.publishQ.cap - w.p.publishQ.buf.length) := by
    omega
  have hsub : added.Sublist (msgs.filter (eligible w.heap)) := by
    have h1 := List.Sublist.filter (eligible w.heap) hs
    rwa [List.filter_eq_self.mpr he] at h1
  have hcongr : msgs.countP (fun x => eligible w.heap x &&
        decide (x ∉ (requeueOutstanding w msgs).p.publishQ.buf))
      = msgs.countP (fun x => decide (x ∉ added) && eligible w.heap x) := by
    apply List.countP_congr
    intro x hx
    have hx1 := hfresh x hx
    rw [hb]
    simp [hx1, Bool.and_comm]
  rw [hcongr, ← List.countP_filter,
    countP_not_mem_of_sublist _ added (hnd.filter _) hsub, ← hadded, List.countP_eq_length_filter]

/-- C17: at the end of an epoch with `remaining` as the content of
`outstandingMsgs` (distinct allocated messages, none of them queued) and `q`
messages in the queue of capacity 100, let `e` be the number of messages of
the map whose counter is below `MaxRetries` after the increment of
`retryMsg` (for a counter `c` other than the largest `int` that is
`c + 1 < MaxRetries`).  Whatever the order in which the deferred loop visits
the map, with nothing else touching the queue, the loop runs to its end, the
queue keeps its old content as a head and grows by exactly `min e (100 - q)`
messages, and exactly `e - min e (100 - q)` of the `e` messages are not in the
queue afterwards. -/
theorem deferred_requeue_count {Body : Type} (jsonMarshal : Body → Except GoError (List UInt8))
    (w : World) (ret : GoError) (remaining order : TagMap)
    (hpc : w.pc = .deferred ret remaining)
    (hkeys : (mapKeys remaining).Nodup)
    (hvalues : (mapValues remaining).Nodup)
    (halloc : ∀ msg ∈ mapValues remaining, msg < w.heap.length)
    (hfresh : ∀ msg ∈ mapValues remaining, msg ∉ w.p.publishQ.buf)
    (hcap : w.p.publishQ.cap = 100)
    (hlen : w.p.publishQ.buf.length ≤ 100)
    (horder : order.Perm remaining) :
    run jsonMarshal w ((mapKeys order).map Event.deferNext)
      = some { requeueOutstanding w (mapValues order) with pc := .deferred ret [] } ∧
    w.p.publishQ.buf <+: (requeueOutstanding w (mapValues order)).p.publishQ.buf ∧
    (requeueOutstanding w (mapValues order)).p.publishQ.buf.length
      = w.p.publishQ.buf.length
        + min ((mapValues remaining).countP
                (fun msg => decide (wrapInt (retriesOf w.heap msg + 1) < 3)))
            (100 - w.p.publishQ.buf.length) ∧
    (mapValues remaining).countP (fun msg => decide (wrapInt (retriesOf w.heap msg + 1) < 3) &&
        decide (msg ∉ (requeueOutstanding w (mapValues order)).p.publishQ.buf))
      = (mapValues remaining).countP
          (fun msg => decide (wrapInt (retriesOf w.heap msg + 1) < 3))
        - min ((mapValues remaining).countP
                (fun msg => decide (wrapInt (retriesOf w.heap msg + 1) < 3)))
            (100 - w.p.publishQ.buf.length) ∧
    ((∀ msg ∈ mapValues remaining,
        -(2 ^ 63) ≤ retriesOf w.heap msg ∧ retriesOf w.heap msg < 2 ^ 63 - 1) →
      (mapValues remaining).countP (fun msg => decide (wrapInt (retriesOf w.heap msg + 1) < 3))
        = (mapValues remaining).countP (fun msg => decide (retriesOf w.heap msg + 1 < 3))) := by
  have hvperm : (mapValues order).Perm (mapValues remaining) := horder.map Prod.snd
  have hnd : (mapValues order).Nodup := hvperm.nodup_iff.mpr hvalues
  have hall : ∀ x ∈ mapValues order, x < w.heap.length :=
    fun x hx => halloc x (hvperm.subset hx)
  have hfr : ∀ x ∈ mapValues order, x ∉ w.p.publishQ.buf :=
    fun x hx => hfresh x (hvperm.subset hx)
  have hlen1 : w.p.publishQ.buf.length ≤ w.p.publishQ.cap := by rw [hcap]; exact hlen
  have hel : eligible w.heap = fun msg => decide (wrapInt (retriesOf w.heap msg + 1) < 3) := rfl
  have h1 := requeueOutstanding_length (mapValues order) w hnd hall hlen1
  have h2 := requeueOutstanding_lost (mapValues order) w hnd hall hlen1 hfr
  rw [hvperm.countP_eq, hcap, hel] at h1 h2
  rw [hvperm.countP_eq] at h2
  refine ⟨run_deferNext jsonMarshal order w ret remaining hpc hkeys horder,
    (requeueOutstanding_frame (mapValues order) w).2.2.1, h1, h2, ?_⟩
  intro hrange
  apply List.countP_congr
  intro msg hmsg
  obtain ⟨hlo, hhi⟩ := hrange msg hmsg
  rw [wrapInt_of_range _ (by omega) (by omega)]

/-- C17, at a concrete input: of the two unconfirmed messages one is below
the ceiling after its increment; the empty queue takes it, in the order tag
2, tag 1 of the visit. -/
theorem deferred_requeue_count_witness :
    (requeueOutstanding exampleDeferred [1, 0]).p.publishQ.buf.length
      = 0 + min 1 (100 - 0) :=
  (deferred_requeue_count exampleMarshal exampleDeferred (.text "channel or connection closed")
    [(1, 0), (2, 1)] [(2, 1), (1, 0)] rfl (by decide) (by decide) (by decide) (by decide) rfl
    (by decide) (List.Perm.swap _ _ _)).2.2.1


/-! ## The keys of the tracker (C12) -/

theorem tag_of_tracker (pc : Pc) (t : Nat) (o : TagMap) (h : pc.tracker = some (t, o)) :
    pc.tag = some t := by
  cases pc <;> simp [Pc.tracker] at h <;> simp [Pc.tag, h]

theorem tracker_of_tag (pc : Pc) (t : Nat) (h : pc.tag = some t) :
    ∃ o, pc.tracker = some (t, o) := by
  cases pc <;> simp [Pc.tag] at h <;> simp [Pc.tracker, h]

theorem tracker_step {Body : Type} (jsonMarshal : Body → Except GoError (List UInt8))
    (w w1 : World) (e : Event Body) (t1 : Nat) (o1 : TagMap)
    (hs : step jsonMarshal w e = some w1) (he : e.isConnect = false)
    (ht : w1.pc.tracker = some (t1, o1)) :
    ∃ t o, w.pc.tracker = some (t, o) ∧
      ((e.isSendOk = true ∧ t1 = (t + 1) % 2 ^ 64 ∧ ∃ msg, o1 = mapSet o t msg) ∨
       (e.isSendOk = false ∧ t1 = t ∧ (o1 = o ∨ ∃ tag, o1 = mapDelete o tag))) := by
  cases e with
  | callerPublish ctx key body choice =>
    simp only [step, Option.map_eq_some'] at hs
    obtain ⟨o, ho, rfl⟩ := hs
    rw [Publish_pc jsonMarshal w ctx key body o (List.getElem?_mem ho)] at ht
    exact ⟨t1, o1, ht, Or.inr ⟨rfl, rfl, Or.inl rfl⟩⟩
  | cancel err =>
    simp only [step] at hs
    cases hc : w.p.ctx with
    | none =>
      simp only [hc, Option.some.injEq] at hs
      subst hs
      exact ⟨t1, o1, ht, Or.inr ⟨rfl, rfl, Or.inl rfl⟩⟩
    | some e => simp [hc] at hs
  | connect result => cases he
  | ctxDone =>
    cases hpc : w.pc <;> cases hc : w.p.ctx <;> simp [step, hpc, hc] at hs
    subst hs
    cases ht
  | closed err =>
    cases hpc : w.pc <;> simp [step, hpc] at hs
    subst hs
    cases ht
  | dequeue =>
    cases hpc : w.pc <;> cases hq : w.p.publishQ.buf <;> simp [step, hpc, hq] at hs
    subst hs
    simp only [Pc.tracker, Option.some.injEq, Prod.mk.injEq] at ht
    obtain ⟨h1, h2⟩ := ht
    subst h1
    subst h2
    exact ⟨_, _, rfl, Or.inr ⟨rfl, rfl, Or.inl rfl⟩⟩
  | publishReturns result =>
    cases hpc : w.pc <;> cases result <;> simp [step, hpc] at hs
    · subst hs
      simp only [Pc.tracker, Option.some.injEq, Prod.mk.injEq] at ht
      obtain ⟨h1, h2⟩ := ht
      exact ⟨_, _, rfl, Or.inl ⟨rfl, h1.symm, _, h2.symm⟩⟩
    · subst hs
      cases ht
  | confirm conf =>
    cases hpc : w.pc with
    | selecting t o =>
      cases conf with
      | none =>
        simp only [step, hpc, Option.some.injEq] at hs
        subst hs
        cases ht
      | some c =>
        obtain ⟨tag, success⟩ := c
        cases hget : mapGet o tag with
        | none =>
          simp only [step, hpc, hget, Option.some.injEq] at hs
          subst hs
          rw [hpc] at ht
          exact ⟨t1, o1, ht, Or.inr ⟨rfl, rfl, Or.inl rfl⟩⟩
        | some msg =>
          have hfin : w1.pc = .selecting t (mapDelete o tag) := by
            cases success with
            | true =>
              simp only [step, hpc, hget, if_true, Option.some.injEq] at hs
              subst hs
              rfl
            | false =>
              simp only [step, hpc, hget, Bool.false_eq_true, if_false, Option.some.injEq] at hs
              subst hs
              rw [retryMsg_pc]
          rw [hfin] at ht
          simp only [Pc.tracker, Option.some.injEq, Prod.mk.injEq] at ht
          obtain ⟨h1, h2⟩ := ht
          exact ⟨t, o, rfl, Or.inr ⟨rfl, h1.symm, Or.inr ⟨tag, h2.symm⟩⟩⟩
    | outside => cases conf <;> simp [step, hpc] at hs
    | publishing msg t o => cases conf <;> simp [step, hpc] at hs
    | deferred ret o => cases conf <;> simp [step, hpc] at hs
    | stopped => cases conf <;> simp [step, hpc] at hs
  | deferNext tag =>
    have hnone : w1.pc.tag = none := by
      by_contra hcon
      obtain ⟨t0, ht0⟩ := Option.ne_none_iff_exists'.mp hcon
      obtain ⟨t, htw, -⟩ := tag_step jsonMarshal w w1 (.deferNext tag) t0 hs rfl ht0
      cases hpc : w.pc <;> simp [step, hpc] at hs
      simp [hpc, Pc.tag] at htw
    rw [tag_of_tracker _ _ _ ht] at hnone
    cases hnone
  | deferDone =>
    have hnone : w1.pc.tag = none := by
      by_contra hcon
      obtain ⟨t0, ht0⟩ := Option.ne_none_iff_exists'.mp hcon
      obtain ⟨t, htw, -⟩ := tag_step jsonMarshal w w1 .deferDone t0 hs rfl ht0
      cases hpc : w.pc <;> simp [step, hpc] at hs
      simp [hpc, Pc.tag] at htw
    rw [tag_of_tracker _ _ _ ht] at hnone
    cases hnone


theorem mapKeys_mapDelete_sublist (m : TagMap) (t : Nat) :
    (mapKeys (mapDelete m t)).Sublist (mapKeys m) :=
  List.Sublist.map _ (List.filter_sublist m)

theorem mapGet_of_not_mem (m : TagMap) (t : Nat) (h : t ∉ mapKeys m) : mapGet m t = none := by
  induction m with
  | nil => rfl
  | cons e rest ih =>
    obtain ⟨k, v⟩ := e
    have h1 : t ≠ k ∧ t ∉ mapKeys rest := by
      simpa [mapKeys] using h
    rw [mapGet_cons, if_neg (fun hk => h1.1 hk.symm)]
    exact ih h1.2

theorem TrackerOk.delete {t : Nat} {o : TagMap} (h : TrackerOk t o) (tag : Nat) :
    TrackerOk t (mapDelete o tag) :=
  ⟨h.1, h.2.1.sublist (mapKeys_mapDelete_sublist o tag),
    fun k hk => h.2.2 k ((mapKeys_mapDelete_sublist o tag).subset hk)⟩

theorem TrackerOk.set {t : Nat} {o : TagMap} (h : TrackerOk t o) (msg : Ptr) :
    TrackerOk (t + 1) (mapSet o t msg) := by
  have hd := h.delete t
  have hnot : t ∉ mapKeys (mapDelete o t) := fun hk => Nat.lt_irrefl t (hd.2.2 t hk).2
  refine ⟨Nat.le_add_left 1 t, ?_, ?_⟩
  · show (t :: mapKeys (mapDelete o t)).Nodup
    exact List.nodup_cons.mpr ⟨hnot, hd.2.1⟩
  · intro k hk
    have hk1 : k = t ∨ k ∈ mapKeys (mapDelete o t) := List.mem_cons.mp hk
    rcases hk1 with hk1 | hk1
    · subst hk1
      exact ⟨h.1, Nat.lt_succ_self k⟩
    · exact ⟨(hd.2.2 k hk1).1, Nat.lt_succ_of_lt (hd.2.2 k hk1).2⟩

theorem tracker_run {Body : Type} (jsonMarshal : Body → Except GoError (List UInt8))
    (evs : List (Event Body)) (w w1 : World) (t0 t1 : Nat) (o0 o1 : TagMap)
    (h0 : w.pc.tracker = some (t0, o0)) (hok : TrackerOk t0 o0)
    (hbound : t0 + sendsOk evs < 2 ^ 64)
    (he : ∀ e ∈ evs, e.isConnect = false)
    (hr : run jsonMarshal w evs = some w1)
    (h1 : w1.pc.tracker = some (t1, o1)) :
    TrackerOk t1 o1 ∧ t1 = t0 + sendsOk evs := by
  induction evs generalizing w t0 o0 with
  | nil =>
    simp only [run, Option.some.injEq] at hr
    subst hr
    rw [h0] at h1
    simp only [Option.some.injEq, Prod.mk.injEq] at h1
    obtain ⟨ha, hb⟩ := h1
    subst ha
    subst hb
    exact ⟨hok, by simp [sendsOk]⟩
  | cons e es ih =>
    cases hs : step jsonMarshal w e with
    | none => simp [run, hs] at hr
    | some w2 =>
      simp only [run, hs] at hr
      have hes : ∀ x ∈ es, x.isConnect = false := fun x hx => he x (List.mem_cons_of_mem _ hx)
      obtain ⟨t2, ht2, -⟩ := tag_run jsonMarshal es w2 w1 t1 hr hes (tag_of_tracker _ _ _ h1)
      obtain ⟨o2, ho2⟩ := tracker_of_tag _ _ ht2
      obtain ⟨t, o, hto, hrel⟩ :=
        tracker_step jsonMarshal w w2 e t2 o2 hs (he e (List.mem_cons_self _ _)) ho2
      rw [h0] at hto
      simp only [Option.some.injEq, Prod.mk.injEq] at hto
      obtain ⟨ha, hb⟩ := hto
      subst ha
      subst hb
      rw [sendsOk_cons] at hbound ⊢
      rcases hrel with ⟨hso, htag, msg, hmap⟩ | ⟨hso, htag, hmap⟩
      · simp only [hso, if_true] at hbound ⊢
        have hmod : (t0 + 1) % 2 ^ 64 = t0 + 1 := Nat.mod_eq_of_lt (by omega)
        rw [hmod] at htag
        subst htag
        subst hmap
        obtain ⟨r1, r2⟩ := ih w2 (t0 + 1) (mapSet o0 t0 msg) ho2 (hok.set msg) (by omega) hes hr
        exact ⟨r1, by omega⟩
      · simp only [hso, Bool.false_eq_true, if_false, Nat.add_zero] at hbound ⊢
        subst htag
        have hok2 : TrackerOk t2 o2 := by
          rcases hmap with hmap | ⟨tag, hmap⟩
          · rw [hmap]; exact hok
          · rw [hmap]; exact hok.delete tag
        exact ih w2 t2 o2 ho2 hok2 hbound hes hr

/-- C12: in an epoch (started by a connect from any world, with fewer than
`2 ^ 64 - 1` successful sends so far, the range of the `uint64` tag), at
every point of the loop the keys of `outstandingMsgs` are distinct and lie in
`1 ≤ key < nextMsgTag`; so `nextMsgTag` is not a key, recording a message
under `nextMsgTag` adds an entry without replacing one, and the map holds at
most `nextMsgTag - 1` entries. -/
theorem tracker_keys_in_range {Body : Type} (jsonMarshal : Body → Except GoError (List UInt8))
    (wprev w0 w : World) (evs : List (Event Body)) (nextMsgTag : Nat)
    (outstandingMsgs : TagMap)
    (hconn : step jsonMarshal wprev (.connect none) = some w0)
    (hsame : ∀ e ∈ evs, e.isConnect = false)
    (hrun : run jsonMarshal w0 evs = some w)
    (hpc : w.pc.tracker = some (nextMsgTag, outstandingMsgs))
    (hi : sendsOk evs + 1 < 2 ^ 64) :
    (∀ k ∈ mapKeys outstandingMsgs, 1 ≤ k ∧ k < nextMsgTag) ∧
    (mapKeys outstandingMsgs).Nodup ∧
    mapGet outstandingMsgs nextMsgTag = none ∧
    (∀ msg, mapSet outstandingMsgs nextMsgTag msg = (nextMsgTag, msg) :: outstandingMsgs) ∧
    outstandingMsgs.length ≤ nextMsgTag - 1 := by
  have h0 : w0.pc = .selecting 1 [] := by
    cases hp : wprev.pc <;> simp [step, hp] at hconn
    subst hconn
    rfl
  have hstart : TrackerOk 1 [] := ⟨Nat.le_refl 1, List.nodup_nil, fun k hk => by cases hk⟩
  obtain ⟨hok, -⟩ := tracker_run jsonMarshal evs w0 w 1 nextMsgTag [] outstandingMsgs
    (by rw [h0]; rfl) hstart (by omega) hsame hrun hpc
  have hnot : nextMsgTag ∉ mapKeys outstandingMsgs :=
    fun hk => Nat.lt_irrefl _ (hok.2.2 _ hk).2
  refine ⟨hok.2.2, hok.2.1, mapGet_of_not_mem _ _ hnot, ?_, ?_⟩
  · intro msg
    unfold mapSet
    rw [mapDelete_of_not_mem _ _ hnot]
  · have hsub : (mapKeys outstandingMsgs).toFinset ⊆ Finset.Ico 1 nextMsgTag := by
      intro k hk
      rw [List.mem_toFinset] at hk
      exact Finset.mem_Ico.mpr (hok.2.2 k hk)
    have hcard := Finset.card_le_card hsub
    rw [List.toFinset_card_of_nodup hok.2.1, Nat.card_Ico] at hcard
    simpa [mapKeys] using hcard

/-- C12, at a concrete run: after one successful send and a second dequeue
the map has the single key 1 and `nextMsgTag` is 2. -/
theorem tracker_keys_in_range_witness :
    mapGet [(1, 0)] 2 = none ∧ ([(1, 0)] : TagMap).length ≤ 2 - 1 :=
  ⟨(tracker_keys_in_range exampleMarshal exampleTwoQueued
      { exampleTwoQueued with pc := .selecting 1 [] } exampleTwoSent
      [.dequeue, .publishReturns none, .dequeue] 2 [(1, 0)]
      rfl (by decide) (by decide) rfl (by decide)).2.2.1,
   (tracker_keys_in_range exampleMarshal exampleTwoQueued
      { exampleTwoQueued with pc := .selecting 1 [] } exampleTwoSent
      [.dequeue, .publishReturns none, .dequeue] 2 [(1, 0)]
      rfl (by decide) (by decide) rfl (by decide)).2.2.2.2⟩


/-! ## The end of an epoch and the deferred loop under interleaving (C2) -/

theorem mapGet_mem (m : TagMap) (t : Nat) (v : Ptr) (h : mapGet m t = some v) : (t, v) ∈ m := by
  induction m with
  | nil => cases h
  | cons e rest ih =>
    obtain ⟨k, u⟩ := e
    rw [mapGet_cons] at h
    by_cases hk : k = t
    · rw [if_pos hk] at h
      cases h
      subst hk
      exact List.mem_cons_self _ _
    · rw [if_neg hk] at h
      exact List.mem_cons_of_mem _ (ih h)

theorem not_mem_mapValues_mapDelete (m : TagMap) (t : Nat) (v : Ptr)
    (hvalues : (mapValues m).Nodup) (h : mapGet m t = some v) :
    v ∉ mapValues (mapDelete m t) := by
  have hsub := cons_mapValues_mapDelete_subperm m t v h
  obtain ⟨l, hl, hl2⟩ := hsub
  have hnd : (v :: mapValues (mapDelete m t)).Nodup := hl.nodup_iff.mp (hvalues.sublist hl2)
  exact (List.nodup_cons.mp hnd).1

theorem mem_mapValues_mapDelete (m : TagMap) (t : Nat) (v x : Ptr)
    (hkeys : (mapKeys m).Nodup) (h : mapGet m t = some v) (hx : x ∈ mapValues m)
    (hne : x ≠ v) : x ∈ mapValues (mapDelete m t) := by
  obtain ⟨e, he, hex⟩ := List.mem_map.mp hx
  obtain ⟨k, u⟩ := e
  simp only at hex
  subst hex
  have hk : k ≠ t := by
    rintro rfl
    rw [mapGet_of_mem m k u hkeys he] at h
    cases h
    exact hne rfl
  exact List.mem_map.mpr ⟨(k, u), List.mem_filter.mpr ⟨he, by simpa using hk⟩, rfl⟩

theorem Publish_frame {Body : Type} (jsonMarshal : Body → Except GoError (List UInt8))
    (w : World) (ctx : Option GoError) (key : String) (body : Body) :
    ∀ o ∈ Publish jsonMarshal w ctx key body,
      o.2.p.publishQ.cap = w.p.publishQ.cap ∧
      w.p.publishQ.buf <+: o.2.p.publishQ.buf ∧
      (w.p.publishQ.buf.length ≤ w.p.publishQ.cap →
        o.2.p.publishQ.buf.length ≤ w.p.publishQ.cap) ∧
      w.heap.length ≤ o.2.heap.length ∧
      ∀ x, x < w.heap.length → retriesOf o.2.heap x = retriesOf w.heap x := by
  intro o ho
  unfold Publish at ho
  cases hj : jsonMarshal body with
  | error err =>
    simp only [hj, List.mem_singleton] at ho
    subst ho
    exact ⟨rfl, List.prefix_refl _, fun h => h, le_refl _, fun _ _ => rfl⟩
  | ok bodyRaw =>
    have hgrow : w.heap.length ≤ (w.heap ++ [newPublishMessage w.p key bodyRaw]).length := by
      simp
    have hsame : ∀ x, x < w.heap.length →
        retriesOf (w.heap ++ [newPublishMessage w.p key bodyRaw]) x = retriesOf w.heap x :=
      fun x hx => retriesOf_append_of_lt _ _ x hx
    simp only [hj, Chan.trySend, List.mem_append] at ho
    rcases ho with (ho | ho) | ho
    · split_ifs at ho with hroom
      · simp only [List.mem_singleton] at ho
        subst ho
        refine ⟨rfl, List.prefix_append _ _, fun _ => ?_, hgrow, hsame⟩
        simp only [List.length_append, List.length_singleton]
        exact hroom
      · cases ho
    · cases hc : ctx with
      | none => simp [hc] at ho
      | some e =>
        simp only [hc, List.mem_singleton] at ho
        subst ho
        exact ⟨rfl, List.prefix_refl _, fun h => h, hgrow, hsame⟩
    · cases hc : w.p.ctx with
      | none => simp [hc] at ho
      | some e =>
        simp only [hc, List.mem_singleton] at ho
        subst ho
        exact ⟨rfl, List.prefix_refl _, fun h => h, hgrow, hsame⟩

theorem exit_step {Body : Type} (jsonMarshal : Body → Except GoError (List UInt8))
    (w wd : World) (e : Event Body) (t : Nat) (o : TagMap)
    (hpc : w.pc.tracker = some (t, o))
    (hs : step jsonMarshal w e = some wd)
    (hleft : wd.pc.tracker = none) :
    ∃ ret, wd.pc = .deferred ret o := by
  cases e with
  | callerPublish ctx key body choice =>
    simp only [step, Option.map_eq_some'] at hs
    obtain ⟨r, hr, rfl⟩ := hs
    rw [Publish_pc jsonMarshal w ctx key body r (List.getElem?_mem hr), hpc] at hleft
    cases hleft
  | cancel err =>
    simp only [step] at hs
    cases hc : w.p.ctx with
    | none =>
      simp only [hc, Option.some.injEq] at hs
      subst hs
      rw [hpc] at hleft
      cases hleft
    | some e => simp [hc] at hs
  | connect result =>
    cases hp : w.pc <;> simp [hp, Pc.tracker] at hpc <;> simp [step, hp] at hs
  | ctxDone =>
    cases hp : w.pc <;> cases hc : w.p.ctx <;> simp [step, hp, hc] at hs
    subst hs
    simp only [hp, Pc.tracker, Option.some.injEq, Prod.mk.injEq] at hpc
    exact ⟨_, by rw [hpc.2]⟩
  | closed err =>
    cases hp : w.pc <;> simp [step, hp] at hs
    subst hs
    simp only [hp, Pc.tracker, Option.some.injEq, Prod.mk.injEq] at hpc
    exact ⟨_, by rw [hpc.2]⟩
  | dequeue =>
    cases hp : w.pc <;> cases hq : w.p.publishQ.buf <;> simp [step, hp, hq] at hs
    subst hs
    simp [Pc.tracker] at hleft
  | publishReturns result =>
    cases hp : w.pc <;> cases result <;> simp [step, hp] at hs
    · subst hs
      simp [Pc.tracker] at hleft
    · subst hs
      simp only [hp, Pc.tracker, Option.some.injEq, Prod.mk.injEq] at hpc
      exact ⟨_, by rw [hpc.2]⟩
  | confirm conf =>
    cases hp : w.pc with
    | selecting t1 o1 =>
      simp only [hp, Pc.tracker, Option.some.injEq, Prod.mk.injEq] at hpc
      cases conf with
      | none =>
        simp only [step, hp, Option.some.injEq] at hs
        subst hs
        exact ⟨_, by rw [hpc.2]⟩
      | some c =>
        obtain ⟨tag, success⟩ := c
        cases hget : mapGet o1 tag with
        | none =>
          simp only [step, hp, hget, Option.some.injEq] at hs
          subst hs
          simp [hp, Pc.tracker] at hleft
        | some msg =>
          cases success with
          | true =>
            simp only [step, hp, hget, if_true, Option.some.injEq] at hs
            subst hs
            simp [Pc.tracker] at hleft
          | false =>
            simp only [step, hp, hget, Bool.false_eq_true, if_false, Option.some.injEq] at hs
            subst hs
            rw [retryMsg_pc] at hleft
            simp [Pc.tracker] at hleft
    | outside => cases conf <;> simp [step, hp] at hs
    | publishing msg t1 o1 => cases conf <;> simp [step, hp] at hs
    | deferred ret o1 => cases conf <;> simp [step, hp] at hs
    | stopped => cases conf <;> simp [step, hp] at hs
  | deferNext tag =>
    cases hp : w.pc <;> simp [hp, Pc.tracker] at hpc <;> simp [step, hp] at hs
  | deferDone =>
    cases hp : w.pc <;> simp [hp, Pc.tracker] at hpc <;> simp [step, hp] at hs


theorem drain_run {Body : Type} (jsonMarshal : Body → Except GoError (List UInt8))
    (evs : List (Event Body)) (v wfin : World) (ret : GoError) (rem : TagMap)
    (hpc : v.pc = .deferred ret rem)
    (hkeys : (mapKeys rem).Nodup) (hvalues : (mapValues rem).Nodup)
    (halloc : ∀ msg ∈ mapValues rem, msg < v.heap.length)
    (hlen : v.p.publishQ.buf.length ≤ v.p.publishQ.cap)
    (hev : ∀ e ∈ evs, e.isDrain = true)
    (hrun : run jsonMarshal v evs = some wfin)
    (hend : wfin.pc = .deferred ret []) :
    (∀ msg ∈ mapValues rem,
      retriesOf wfin.heap msg = wrapInt (retriesOf v.heap msg + 1) ∧
      (msg ∈ wfin.p.publishQ.buf ∨ (MaxRetries : Int) ≤ retriesOf wfin.heap msg ∨
        wfin.p.publishQ.cap ≤ wfin.p.publishQ.buf.length)) ∧
    (∀ x, x < v.heap.length → x ∉ mapValues rem →
      retriesOf wfin.heap x = retriesOf v.heap x) ∧
    v.p.publishQ.buf <+: wfin.p.publishQ.buf ∧
    wfin.p.publishQ.cap = v.p.publishQ.cap ∧
    wfin.p.publishQ.buf.length ≤ v.p.publishQ.cap := by
  induction evs generalizing v rem with
  | nil =>
    simp only [run, Option.some.injEq] at hrun
    subst hrun
    rw [hpc] at hend
    simp only [Pc.deferred.injEq, true_and] at hend
    subst hend
    refine ⟨?_, fun _ _ _ => rfl, List.prefix_refl _, rfl, hlen⟩
    intro msg hmsg
    cases hmsg
  | cons e es ih =>
    have hes : ∀ x ∈ es, x.isDrain = true := fun x hx => hev x (List.mem_cons_of_mem _ hx)
    have he := hev e (List.mem_cons_self _ _)
    cases hs : step jsonMarshal v e with
    | none => simp [run, hs] at hrun
    | some v2 =>
      simp only [run, hs] at hrun
      cases e with
      | deferNext tag =>
        cases hget : mapGet rem tag with
        | none => simp [step, hpc, hget] at hs
        | some m =>
          simp only [step, hpc, hget, Option.some.injEq, retryMsg_setPc] at hs
          subst hs
          have hm_mem : m ∈ mapValues rem :=
            List.mem_map.mpr ⟨(tag, m), mapGet_mem rem tag m hget, rfl⟩
          have hm_alloc : m < v.heap.length := halloc m hm_mem
          have hm_not : m ∉ mapValues (mapDelete rem tag) :=
            not_mem_mapValues_mapDelete rem tag m hvalues hget
          obtain ⟨a1, a2, a3, a4, a5⟩ :=
            ih { retryMsg v m with pc := .deferred ret (mapDelete rem tag) } (mapDelete rem tag)
              rfl
              (hkeys.sublist (mapKeys_mapDelete_sublist rem tag))
              (hvalues.sublist (mapValues_mapDelete_sublist rem tag))
              (fun msg hmsg => by
                show msg < (retryMsg v m).heap.length
                rw [retryMsg_heap_length]
                exact halloc msg ((mapValues_mapDelete_sublist rem tag).subset hmsg))
              (by
                show (retryMsg v m).p.publishQ.buf.length ≤ (retryMsg v m).p.publishQ.cap
                rw [retryMsg_cap]
                exact retryMsg_buf_length_le v m hlen)
              hes hrun
          have a2m := a2 m (by
            show m < (retryMsg v m).heap.length
            rw [retryMsg_heap_length]
            exact hm_alloc) hm_not
          have b1 : retriesOf (retryMsg v m).heap m = wrapInt (retriesOf v.heap m + 1) :=
            retryMsg_retriesOf_self v m hm_alloc
          have a3p : (retryMsg v m).p.publishQ.buf <+: wfin.p.publishQ.buf := a3
          have a4c : wfin.p.publishQ.cap = (retryMsg v m).p.publishQ.cap := a4
          have a5c : wfin.p.publishQ.buf.length ≤ (retryMsg v m).p.publishQ.cap := a5
          rw [retryMsg_cap] at a4c a5c
          refine ⟨?_, ?_, (retryMsg_buf_grows v m).trans a3p, a4c, a5c⟩
          · intro msg hmsg
            by_cases hmm : msg = m
            · subst hmm
              have a2m1 : retriesOf wfin.heap msg = retriesOf (retryMsg v msg).heap msg := a2m
              refine ⟨by rw [a2m1, b1], ?_⟩
              rcases retryMsg_outcome v msg hm_alloc with h | h | h
              · exact Or.inl (a3p.subset h)
              · exact Or.inr (Or.inl (by rw [a2m1]; exact h))
              · rw [retryMsg_cap] at h
                exact Or.inr (Or.inr (by rw [a4c]; exact le_trans h a3p.length_le))
            · have hin := mem_mapValues_mapDelete rem tag m msg hkeys hget hmsg hmm
              obtain ⟨c1, c2⟩ := a1 msg hin
              have c1h : retriesOf wfin.heap msg
                  = wrapInt (retriesOf (retryMsg v m).heap msg + 1) := c1
              rw [retryMsg_retriesOf_of_ne v m msg hmm] at c1h
              exact ⟨c1h, c2⟩
          · intro x hx hxn
            have hxm : x ≠ m := fun h => hxn (h ▸ hm_mem)
            have hx2 := a2 x (by
              show x < (retryMsg v m).heap.length
              rw [retryMsg_heap_length]
              exact hx) (fun h => hxn ((mapValues_mapDelete_sublist rem tag).subset h))
            have hx3 : retriesOf wfin.heap x = retriesOf (retryMsg v m).heap x := hx2
            rw [hx3, retryMsg_retriesOf_of_ne v m x hxm]
      | callerPublish ctx key body choice =>
        simp only [step, Option.map_eq_some'] at hs
        obtain ⟨r, hr, rfl⟩ := hs
        have hmem := List.getElem?_mem hr
        obtain ⟨f1, f2, f3, f4, f5⟩ := Publish_frame jsonMarshal v ctx key body r hmem
        have hpc2 : r.2.pc = .deferred ret rem := by
          rw [Publish_pc jsonMarshal v ctx key body r hmem]
          exact hpc
        obtain ⟨a1, a2, a3, a4, a5⟩ := ih r.2 rem hpc2 hkeys hvalues
          (fun msg hmsg => lt_of_lt_of_le (halloc msg hmsg) f4)
          (by rw [f1]; exact f3 hlen) hes hrun
        rw [f1] at a4 a5
        refine ⟨?_, ?_, f2.trans a3, a4, a5⟩
        · intro msg hmsg
          obtain ⟨c1, c2⟩ := a1 msg hmsg
          rw [f5 msg (halloc msg hmsg)] at c1
          exact ⟨c1, c2⟩
        · intro x hx hxn
          rw [a2 x (lt_of_lt_of_le hx f4) hxn, f5 x hx]
      | cancel err =>
        simp only [step] at hs
        cases hc : v.p.ctx with
        | none =>
          simp only [hc, Option.some.injEq] at hs
          subst hs
          exact ih { v with p := { v.p with ctx := some err } } rem hpc hkeys hvalues halloc
            hlen hes hrun
        | some e0 => simp [hc] at hs
      | connect result => cases he
      | ctxDone => cases he
      | closed err => cases he
      | dequeue => cases he
      | publishReturns result => cases he
      | confirm conf => cases he
      | deferDone => cases he


theorem drain_pc {Body : Type} (jsonMarshal : Body → Except GoError (List UInt8))
    (evs : List (Event Body)) (v wfin : World) (ret : GoError) (rem : TagMap)
    (hpc : v.pc = .deferred ret rem)
    (hev : ∀ e ∈ evs, e.isDrain = true)
    (hrun : run jsonMarshal v evs = some wfin) :
    ∃ rem1, wfin.pc = .deferred ret rem1 := by
  induction evs generalizing v rem with
  | nil =>
    simp only [run, Option.some.injEq] at hrun
    subst hrun
    exact ⟨rem, hpc⟩
  | cons e es ih =>
    have hes : ∀ x ∈ es, x.isDrain = true := fun x hx => hev x (List.mem_cons_of_mem _ hx)
    have he := hev e (List.mem_cons_self _ _)
    cases hs : step jsonMarshal v e with
    | none => simp [run, hs] at hrun
    | some v2 =>
      simp only [run, hs] at hrun
      cases e with
      | deferNext tag =>
        cases hget : mapGet rem tag with
        | none => simp [step, hpc, hget] at hs
        | some m =>
          simp only [step, hpc, hget, Option.some.injEq] at hs
          subst hs
          exact ih _ (mapDelete rem tag) (by rw [retryMsg_pc]) hes hrun
      | callerPublish ctx key body choice =>
        simp only [step, Option.map_eq_some'] at hs
        obtain ⟨r, hr, rfl⟩ := hs
        exact ih r.2 rem
          (by rw [Publish_pc jsonMarshal v ctx key body r (List.getElem?_mem hr)]; exact hpc)
          hes hrun
      | cancel err =>
        simp only [step] at hs
        cases hc : v.p.ctx with
        | none =>
          simp only [hc, Option.some.injEq] at hs
          subst hs
          exact ih { v with p := { v.p with ctx := some err } } rem hpc hes hrun
        | some e0 => simp [hc] at hs
      | connect result => cases he
      | ctxDone => cases he
      | closed err => cases he
      | dequeue => cases he
      | publishReturns result => cases he
      | confirm conf => cases he
      | deferDone => cases he

/-- C2, as amended.  When a step of the worker ends an epoch (the producer's
context has ended, a close notification, the closed confirmation channel or
a failing transport publish call) while `outstandingMsgs` holds `N` distinct
allocated messages, the whole map is handed to the deferred loop.  The loop
runs to its end in whatever order it visits the map.  In every run of the
loop up to the return of `connectAndLoopPublish`, with any calls of `Publish`
and a cancellation in between, `retryMsg` is applied once to each of the `N`:
its counter goes up by exactly one and no counter of another message
changes; afterwards each of the `N` is in the publish queue, or its counter
has reached `MaxRetries = 3`, or the queue is full (100 messages): a message
below the ceiling is dropped only by a full queue.  The messages queued
before stay at the head of the queue. -/
theorem deferred_requeue {Body : Type} (jsonMarshal : Body → Except GoError (List UInt8))
    (w wd wfin wret : World) (nextMsgTag : Nat) (outstandingMsgs : TagMap)
    (exit : Event Body) (evs : List (Event Body))
    (hpc : w.pc.tracker = some (nextMsgTag, outstandingMsgs))
    (hexit : step jsonMarshal w exit = some wd)
    (hleft : wd.pc.tracker = none)
    (hkeys : (mapKeys outstandingMsgs).Nodup)
    (hvalues : (mapValues outstandingMsgs).Nodup)
    (halloc : ∀ msg ∈ mapValues outstandingMsgs, msg < wd.heap.length)
    (hrange : ∀ msg ∈ mapValues outstandingMsgs,
      -(2 ^ 63) ≤ retriesOf wd.heap msg ∧ retriesOf wd.heap msg < 2 ^ 63 - 1)
    (hcap : wd.p.publishQ.cap = 100)
    (hlen : wd.p.publishQ.buf.length ≤ 100)
    (hev : ∀ e ∈ evs, e.isDrain = true)
    (hrun : run jsonMarshal wd evs = some wfin)
    (hdone : step jsonMarshal wfin .deferDone = some wret) :
    (∃ ret, wd.pc = .deferred ret outstandingMsgs ∧
      wfin.pc = .deferred ret [] ∧
      wret = { wfin with pc := afterReturn wfin } ∧
      ∀ order : TagMap, order.Perm outstandingMsgs →
        run jsonMarshal wd ((mapKeys order).map Event.deferNext ++ [.deferDone])
          = some { requeueOutstanding wd (mapValues order) with
              pc := afterReturn (requeueOutstanding wd (mapValues order)) }) ∧
    (∀ msg ∈ mapValues outstandingMsgs,
      retriesOf wfin.heap msg = retriesOf wd.heap msg + 1 ∧
      (msg ∈ wfin.p.publishQ.buf ∨ 3 ≤ retriesOf wfin.heap msg ∨
        wfin.p.publishQ.buf.length = 100)) ∧
    (∀ x, x < wd.heap.length → x ∉ mapValues outstandingMsgs →
      retriesOf wfin.heap x = retriesOf wd.heap x) ∧
    wd.p.publishQ.buf <+: wfin.p.publishQ.buf := by
  obtain ⟨ret, hret⟩ := exit_step jsonMarshal w wd exit nextMsgTag outstandingMsgs hpc hexit hleft
  obtain ⟨rem1, hrem1⟩ := drain_pc jsonMarshal evs wd wfin ret outstandingMsgs hret hev hrun
  have hfin : wfin.pc = .deferred ret [] ∧ wret = { wfin with pc := afterReturn wfin } := by
    cases rem1 with
    | nil =>
      simp only [step, hrem1, Option.some.injEq] at hdone
      exact ⟨hrem1, hdone.symm⟩
    | cons e rest => simp [step, hrem1] at hdone
  obtain ⟨d1, d2, d3, d4, d5⟩ := drain_run jsonMarshal evs wd wfin ret outstandingMsgs hret
    hkeys hvalues halloc (by rw [hcap]; exact hlen) hev hrun hfin.1
  rw [hcap] at d4 d5
  refine ⟨⟨ret, hret, hfin.1, hfin.2, ?_⟩, ?_, d2, d3⟩
  · intro order horder
    have hr := run_deferNext jsonMarshal order wd ret outstandingMsgs hret hkeys horder
    have happ : ∀ (es : List (Event Body)) (a b : World) (e : Event Body),
        run jsonMarshal a es = some b →
        run jsonMarshal a (es ++ [e]) = step jsonMarshal b e := by
      intro es
      induction es with
      | nil =>
        intro a b e h
        simp only [run, Option.some.injEq] at h
        subst h
        simp only [List.nil_append, run]
        cases step jsonMarshal a e <;> rfl
      | cons x xs ihx =>
        intro a b e h
        cases hx : step jsonMarshal a x with
        | none => simp [run, hx] at h
        | some a1 =>
          simp only [run, hx] at h
          simp only [List.cons_append, run, hx]
          exact ihx a1 b e h
    rw [happ _ _ _ _ hr]
    simp only [step]
    rfl
  · intro msg hmsg
    obtain ⟨c1, c2⟩ := d1 msg hmsg
    obtain ⟨hlo, hhi⟩ := hrange msg hmsg
    rw [wrapInt_of_range _ (by omega) (by omega)] at c1
    refine ⟨c1, ?_⟩
    rcases c2 with h | h | h
    · exact Or.inl h
    · exact Or.inr (Or.inl h)
    · rw [d4] at h
      exact Or.inr (Or.inr (le_antisymm d5 h))

/-- C2 as amended, at a concrete run: the session is closed with message 0
unconfirmed under tag 1, a call of `Publish` completes before the deferred
loop visits the entry, and the loop puts message 0 back with counter 1 behind
the two queued messages. -/
theorem deferred_requeue_witness :
    run exampleMarshal exampleQueuedAndSent
        [.closed (.text "connection reset"), .callerPublish none "k" (some [3]) 0,
         .deferNext 1]
      = some exampleDrained ∧
    (∀ msg ∈ mapValues [(1, 0)],
      retriesOf exampleDrained.heap msg
          = retriesOf exampleQueuedAndSent.heap msg + 1 ∧
      (msg ∈ exampleDrained.p.publishQ.buf ∨ 3 ≤ retriesOf exampleDrained.heap msg ∨
        exampleDrained.p.publishQ.buf.length = 100)) :=
  ⟨by decide,
   (deferred_requeue exampleMarshal exampleQueuedAndSent
      { exampleQueuedAndSent with
        pc := .deferred (.wrapped "channel or connection closed" (.text "connection reset"))
          [(1, 0)] }
      exampleDrained { exampleDrained with pc := .outside } 2 [(1, 0)]
      (.closed (.text "connection reset"))
      [.callerPublish none "k" (some [3]) 0, .deferNext 1]
      rfl rfl rfl (by decide) (by decide) (by decide) (by decide) rfl (by decide) (by decide)
      (by decide) rfl).2.1⟩


/-! ## Facts about the representation in every run -/

/-- At the largest `int` the increment of `retryMsg` wraps to the smallest
one, which is below the ceiling, so the message is put back into the queue. -/
theorem retryMsg_at_max_int :
    retriesOf (retryMsg exampleMaxInt 0).heap 0 = -(2 ^ 63) ∧
    (retryMsg exampleMaxInt 0).p.publishQ.buf = [0] := by
  constructor <;> decide

theorem not_mem_mapKeys_mapDelete (m : TagMap) (t : Nat) : t ∉ mapKeys (mapDelete m t) := by
  intro h
  obtain ⟨e, he, hk⟩ := List.mem_map.mp h
  have h2 := (List.mem_filter.mp he).2
  simp only [decide_eq_true_eq] at h2
  exact h2 hk

theorem mapKeys_mapSet_nodup (m : TagMap) (t : Nat) (v : Ptr) (h : (mapKeys m).Nodup) :
    (mapKeys (mapSet m t v)).Nodup := by
  show (t :: mapKeys (mapDelete m t)).Nodup
  exact List.nodup_cons.mpr
    ⟨not_mem_mapKeys_mapDelete m t, h.sublist (mapKeys_mapDelete_sublist m t)⟩

theorem WellFormed_retryMsg (w : World) (msg : Ptr) (h : WellFormed w) :
    WellFormed (retryMsg w msg) := by
  obtain ⟨h1, h2, h3⟩ := h
  refine ⟨by rw [retryMsg_pc]; exact h1, by rw [retryMsg_cap]; exact h2, ?_⟩
  have := retryMsg_buf_length_le w msg (by rw [h2]; exact h3)
  rw [h2] at this
  exact this

theorem WellFormed_step {Body : Type} (jsonMarshal : Body → Except GoError (List UInt8))
    (w w1 : World) (e : Event Body) (h : WellFormed w)
    (hs : step jsonMarshal w e = some w1) : WellFormed w1 := by
  obtain ⟨h1, h2, h3⟩ := h
  cases e with
  | callerPublish ctx key body choice =>
    simp only [step, Option.map_eq_some'] at hs
    obtain ⟨r, hr, rfl⟩ := hs
    have hmem := List.getElem?_mem hr
    obtain ⟨f1, -, f3, -, -⟩ := Publish_frame jsonMarshal w ctx key body r hmem
    refine ⟨by rw [Publish_pc jsonMarshal w ctx key body r hmem]; exact h1,
      by rw [f1]; exact h2, ?_⟩
    have := f3 (by rw [h2]; exact h3)
    rw [h2] at this
    exact this
  | cancel err =>
    simp only [step] at hs
    cases hc : w.p.ctx with
    | none =>
      simp only [hc, Option.some.injEq] at hs
      subst hs
      exact ⟨h1, h2, h3⟩
    | some e0 => simp [hc] at hs
  | connect result =>
    cases hp : w.pc <;> cases result <;> simp [step, hp] at hs
    · subst hs
      exact ⟨List.nodup_nil, h2, h3⟩
    · subst hs
      refine ⟨?_, h2, h3⟩
      show (mapKeys (afterReturn w).entries).Nodup
      unfold afterReturn
      cases w.p.ctx <;> exact List.nodup_nil
  | ctxDone =>
    cases hp : w.pc <;> cases hc : w.p.ctx <;> simp [step, hp, hc] at hs
    subst hs
    rw [hp] at h1
    exact ⟨h1, h2, h3⟩
  | closed err =>
    cases hp : w.pc <;> simp [step, hp] at hs
    subst hs
    rw [hp] at h1
    exact ⟨h1, h2, h3⟩
  | dequeue =>
    cases hp : w.pc <;> cases hq : w.p.publishQ.buf <;> simp [step, hp, hq] at hs
    subst hs
    rw [hp] at h1
    rw [hq] at h3
    exact ⟨h1, h2, Nat.le_of_succ_le h3⟩
  | publishReturns result =>
    cases hp : w.pc with
    | publishing msg t o =>
      cases result with
      | none =>
        simp only [step, hp, Option.some.injEq] at hs
        subst hs
        rw [hp] at h1
        exact ⟨mapKeys_mapSet_nodup _ _ _ h1, h2, h3⟩
      | some err =>
        simp only [step, hp, Option.some.injEq] at hs
        subst hs
        have hw := WellFormed_retryMsg w msg ⟨h1, h2, h3⟩
        rw [hp] at h1
        exact ⟨h1, hw.2.1, hw.2.2⟩
    | outside => simp [step, hp] at hs
    | selecting t o => simp [step, hp] at hs
    | deferred ret o => simp [step, hp] at hs
    | stopped => simp [step, hp] at hs
  | confirm conf =>
    cases hp : w.pc with
    | selecting t o =>
      rw [hp] at h1
      cases conf with
      | none =>
        simp only [step, hp, Option.some.injEq] at hs
        subst hs
        exact ⟨h1, h2, h3⟩
      | some c =>
        obtain ⟨tag, success⟩ := c
        have hdel : (mapKeys (mapDelete o tag)).Nodup :=
          h1.sublist (mapKeys_mapDelete_sublist o tag)
        cases hget : mapGet o tag with
        | none =>
          simp only [step, hp, hget, Option.some.injEq] at hs
          subst hs
          exact ⟨by rw [hp]; exact h1, h2, h3⟩
        | some msg =>
          cases success with
          | true =>
            simp only [step, hp, hget, if_true, Option.some.injEq] at hs
            subst hs
            exact ⟨hdel, h2, h3⟩
          | false =>
            simp only [step, hp, hget, Bool.false_eq_true, if_false, Option.some.injEq] at hs
            subst hs
            exact WellFormed_retryMsg _ msg ⟨hdel, h2, h3⟩
    | outside => cases conf <;> simp [step, hp] at hs
    | publishing msg t o => cases conf <;> simp [step, hp] at hs
    | deferred ret o => cases conf <;> simp [step, hp] at hs
    | stopped => cases conf <;> simp [step, hp] at hs
  | deferNext tag =>
    cases hp : w.pc with
    | deferred ret o =>
      rw [hp] at h1
      cases hget : mapGet o tag with
      | none => simp [step, hp, hget] at hs
      | some msg =>
        simp only [step, hp, hget, Option.some.injEq] at hs
        subst hs
        exact WellFormed_retryMsg _ msg
          ⟨h1.sublist (mapKeys_mapDelete_sublist o tag), h2, h3⟩
    | outside => simp [step, hp] at hs
    | selecting t o => simp [step, hp] at hs
    | publishing msg t o => simp [step, hp] at hs
    | stopped => simp [step, hp] at hs
  | deferDone =>
    cases hp : w.pc with
    | deferred ret o =>
      cases o with
      | nil =>
        simp only [step, hp, Option.some.injEq] at hs
        subst hs
        refine ⟨?_, h2, h3⟩
        show (mapKeys (afterReturn w).entries).Nodup
        unfold afterReturn
        cases w.p.ctx <;> exact List.nodup_nil
      | cons e0 rest => simp [step, hp] at hs
    | outside => simp [step, hp] at hs
    | selecting t o => simp [step, hp] at hs
    | publishing msg t o => simp [step, hp] at hs
    | stopped => simp [step, hp] at hs

/-- In every run from the world returned by the constructor the map of the
worker has distinct keys and distinct allocated values that are not queued,
every counter is between 0 and `MaxRetries`, and the queue is a channel of
capacity 100 holding at most 100 messages: the side conditions of the
statements about the deferred loop hold in every run. -/
theorem reachable_wellformed {Body Env : Type}
    (jsonMarshal : Body → Except GoError (List UInt8))
    (connectFn : Env → ConnectCall → Option GoError × Env) (env : Env)
    (ctx : Option GoError) (uri exchange queue keyNs : String) (w0 : World)
    (hnew : (newAMQPProducerInternal connectFn env ctx uri exchange queue keyNs).producer
      = some w0)
    (evs : List (Event Body)) (w : World) (hrun : run jsonMarshal w0 evs = some w) :
    WellFormed w ∧ Inv w := by
  obtain ⟨hheap, hq, hpc, hsent⟩ :=
    newAMQPProducerInternal_start connectFn env ctx uri exchange queue keyNs w0 hnew
  have h0 : Inv w0 := Inv_of_empty w0 hheap (by rw [hq]) hpc hsent
  have hw0 : WellFormed w0 := by
    refine ⟨by rw [hpc]; exact List.nodup_nil, by rw [hq], by rw [hq]; exact Nat.zero_le _⟩
  refine ⟨?_, Inv_run jsonMarshal evs w0 w h0 hrun⟩
  clear h0 hnew hheap hq hpc hsent
  induction evs generalizing w0 with
  | nil =>
    simp only [run, Option.some.injEq] at hrun
    subst hrun
    exact hw0
  | cons e es ih =>
    cases hs : step jsonMarshal w0 e with
    | none => simp [run, hs] at hrun
    | some w2 =>
      simp only [run, hs] at hrun
      exact ih w2 hrun (WellFormed_step jsonMarshal w0 w2 e hw0 hs)

end AmqpProducer
